import Mathlib

/-!
# prox_gradient_ggm: proximal-gradient estimation of a sparse precision matrix

A shallow embedding of `src/src/prox_gradient_ggm.cpp` (functions
`prox_gradient_mapping` and `prox_gradient_ll`) together with the Armadillo
operations the two functions call.

* Doubles are modelled by an arbitrary linearly ordered field `K` (exact arithmetic); the
  rounding of `delta_norm` to `float` is not modelled.  The transcendental functions `log`
  and `sqrt` and the spectral norm `norm(X)` are parameters of the embedding.
* Matrices carry their run-time shape.  Armadillo checks sizes and bounds unless
  `ARMA_NO_DEBUG` is defined, which the source does not do, so every operation that checks
  is fallible here and raises an `ArmaError`.
* The loop of `prox_gradient_mapping` is a state machine on `LoopState`; `while_loop` also
  counts its passes.
-/

set_option autoImplicit false

namespace ProxGradientGGM

/-! ## Armadillo matrices and the operations used by the source -/

/-- Exceptions raised by the Armadillo operations the source calls. -/
inductive ArmaError where
  /-- A `std::logic_error`: "incompatible matrix dimensions" of an element-wise operation. -/
  | incompatible_dimensions
  /-- A `std::logic_error`: the argument of `inv` or `log_det` is not square. -/
  | not_square
  /-- A `std::runtime_error`: "inv(): matrix is singular". -/
  | singular
  /-- A `std::logic_error`: "Mat::operator(): index out of bounds". -/
  | index_out_of_bounds
  deriving DecidableEq

/-- An `arma::mat`: a dense matrix with run-time shape. -/
structure Mat (K : Type) where
  n_rows : Nat
  n_cols : Nat
  elem : Fin n_rows → Fin n_cols → K

variable {K : Type} [LinearOrderedField K]

/-- The `arma::mat` holding the entries of a matrix of fixed shape. -/
def Mat.ofMatrix {n m : Nat} (M : Matrix (Fin n) (Fin m) K) : Mat K :=
  ⟨n, m, M⟩

/-- The matrix `eye<mat>(r, c)`: ones on the main diagonal, zeros elsewhere. -/
def eye (r c : Nat) : Mat K :=
  ⟨r, c, fun i j => if i.val = j.val then 1 else 0⟩

/-- The empty matrix left by `Mat::reset`. -/
def Mat.empty : Mat K :=
  ⟨0, 0, fun i _ => i.elim0⟩

/-- Armadillo `A - B`: element-wise, both operands must have the same size. -/
def Mat.sub (A B : Mat K) : Except ArmaError (Mat K) :=
  if h : A.n_rows = B.n_rows ∧ A.n_cols = B.n_cols then
    .ok ⟨A.n_rows, A.n_cols, fun i j => A.elem i j - B.elem (Fin.cast h.1 i) (Fin.cast h.2 j)⟩
  else .error .incompatible_dimensions

/-- Armadillo `A % B`: element-wise (Schur) product, both operands must have the same size. -/
def Mat.schur (A B : Mat K) : Except ArmaError (Mat K) :=
  if h : A.n_rows = B.n_rows ∧ A.n_cols = B.n_cols then
    .ok ⟨A.n_rows, A.n_cols, fun i j => A.elem i j * B.elem (Fin.cast h.1 i) (Fin.cast h.2 j)⟩
  else .error .incompatible_dimensions

/-- Armadillo `w * A` for a scalar `w`. -/
def Mat.smul (w : K) (A : Mat K) : Mat K :=
  ⟨A.n_rows, A.n_cols, fun i j => w * A.elem i j⟩

/-- Armadillo `trace(A)`: the sum of the entries on the main diagonal. -/
def Mat.trace (A : Mat K) : K :=
  ∑ i : Fin (min A.n_rows A.n_cols),
    A.elem ⟨i.val, lt_of_lt_of_le i.isLt (min_le_left _ _)⟩
      ⟨i.val, lt_of_lt_of_le i.isLt (min_le_right _ _)⟩

/-- The square matrix behind a `Mat` whose shape is square. -/
def Mat.toSquare (A : Mat K) (h : A.n_rows = A.n_cols) : Matrix (Fin A.n_rows) (Fin A.n_rows) K :=
  fun i j => A.elem i (Fin.cast h j)

/-- Armadillo `inv(A)` in exact arithmetic: the argument must be square, a singular
argument raises `inv(): matrix is singular`, otherwise the inverse is returned. -/
def Mat.inv (A : Mat K) : Except ArmaError (Mat K) :=
  if h : A.n_rows = A.n_cols then
    if (A.toSquare h).det = 0 then .error .singular
    else .ok ⟨A.n_rows, A.n_rows, fun i j => (A.toSquare h).det⁻¹ * (A.toSquare h).adjugate i j⟩
  else .error .not_square

/-- The sign returned by `log_det`. -/
def signOf (x : K) : K :=
  if 0 < x then 1 else if x < 0 then -1 else 0

/-- Armadillo `log_det(val, sign, A)`: `val` is the logarithm of the absolute value of the
determinant and `sign` its sign; the argument must be square.  The logarithm on doubles is
the parameter `logf`. -/
def Mat.log_det (logf : K → K) (A : Mat K) : Except ArmaError (K × K) :=
  if h : A.n_rows = A.n_cols then
    .ok (logf |(A.toSquare h).det|, signOf (A.toSquare h).det)
  else .error .not_square

/-- Sum of the absolute values of column `j`. -/
def Mat.abs_col_sum (A : Mat K) (j : Fin A.n_cols) : K :=
  ∑ i : Fin A.n_rows, |A.elem i j|

/-- Sum of the absolute values of all entries. -/
def Mat.abs_sum (A : Mat K) : K :=
  ∑ i : Fin A.n_rows, ∑ j : Fin A.n_cols, |A.elem i j|

/-- Armadillo `norm(A, 1)`.  An argument with a single row or column is treated as a vector
(sum of absolute values); otherwise the result is the induced matrix 1-norm, the maximum
absolute column sum (`max(sum(abs(A), 0), 1)`).  The norm of an empty matrix is 0. -/
def Mat.norm1 (A : Mat K) : K :=
  if A.n_rows = 1 ∨ A.n_cols = 1 then A.abs_sum
  else (List.finRange A.n_cols).foldl (fun acc j => max acc (A.abs_col_sum j)) 0

/-- Normalising constant of `cov` with the default `norm_type = 0`: `n - 1`, or 1 when there
is a single observation. -/
def cov_norm_val (n : Nat) : K :=
  if 1 < n then ((n - 1 : Nat) : K) else 1

/-- Covariance of the columns of an `n × p` table of observations:
`tmp = x.each_row() - mean(x); out = tmp.t() * tmp / norm_val`. -/
def cov_cols (n p : Nat) (x : Fin n → Fin p → K) : Mat K :=
  ⟨p, p, fun j k =>
    (∑ i : Fin n, (x i j - (∑ l : Fin n, x l j) / (n : K)) * (x i k - (∑ l : Fin n, x l k) / (n : K)))
      / cov_norm_val n⟩

/-- Armadillo `cov(X)`: rows are observations and columns are variables.  An empty matrix
gives an empty result, and a matrix with one row is treated as a vector whose elements are
the observations of a single variable. -/
def cov (X : Mat K) : Mat K :=
  if X.n_rows = 0 ∨ X.n_cols = 0 then Mat.empty
  else if h : X.n_rows = 1 then cov_cols X.n_cols 1 (fun i _ => X.elem ⟨0, by omega⟩ i)
  else cov_cols X.n_rows X.n_cols X.elem

/-- A `Mat` that is a symmetric `P × P` matrix. -/
def Mat.IsSymm (P : Nat) (A : Mat K) : Prop :=
  ∃ f : Matrix (Fin P) (Fin P) K, A = Mat.ofMatrix f ∧ f.IsSymm

/-! ## `prox_gradient_mapping` (lines 35-122) -/

/-- Lines 96-104: the branch taken on the entry `theta_p(j,k)`, as a function of its value. -/
def threshold_entry (regularizer x : K) : K :=
  if x ≤ -regularizer then x + regularizer
  else if x ≥ regularizer then x - regularizer
  else 0

/-- The soft-threshold operator in the words of the specification: `x - r` if `x ≥ r`,
`x + r` if `x ≤ -r`, and `0` otherwise. -/
def soft_threshold (r x : K) : K :=
  if x ≥ r then x - r
  else if x ≤ -r then x + r
  else 0

/-- The assignment `M(j,k) = v`. -/
def Mat.set (M : Mat K) (j k : Nat) (v : K) : Mat K :=
  ⟨M.n_rows, M.n_cols, fun a b => if a.val = j ∧ b.val = k then v else M.elem a b⟩

/-- Lines 96-104 at the index pair `(j,k)`; the element access `theta_p(j,k)` is
bounds-checked. -/
def threshold_at (regularizer : K) (M : Mat K) (j k : Nat) : Except ArmaError (Mat K) :=
  if h : j < M.n_rows ∧ k < M.n_cols then
    .ok (M.set j k (threshold_entry regularizer (M.elem ⟨j, h.1⟩ ⟨k, h.2⟩)))
  else .error .index_out_of_bounds

/-- One pass of the inner `for` loop (line 95); after an exception nothing more is executed
and the matrix keeps the entries written so far. -/
def threshold_step (regularizer : K) (j : Nat) (st : Mat K × Option ArmaError) (k : Nat) :
    Mat K × Option ArmaError :=
  match st.2 with
  | some _ => st
  | none =>
    match threshold_at regularizer st.1 j k with
    | .ok M => (M, none)
    | .error e => (st.1, some e)

/-- Lines 94-106: `for j < P` and `for k < P`, in this order, applied in place to `theta_p`.
The result is the matrix after the loops and the exception raised on the way, if any. -/
def threshold_loop (P : Nat) (regularizer : K) (M : Mat K) : Mat K × Option ArmaError :=
  (List.range P).foldl
    (fun st j => (List.range P).foldl (threshold_step regularizer j) st) (M, none)

/-- The `try` block, lines 92-106.  It returns the value of `theta_p` when the block is left
and the exception caught by `catch(...)`, if any.  `inv_theta` is written at line 92 and read
at line 93 only, so it is local to the block. -/
def try_block (P : Nat) (cov_est : Mat K) (regularizer : K) (theta_k theta_p : Mat K)
    (update_w : K) : Mat K × Option ArmaError :=
  match theta_k.inv with
  | .error e => (theta_p, some e)
  | .ok inv_theta =>
    match cov_est.sub inv_theta with
    | .error e => (theta_p, some e)
    | .ok d =>
      match theta_k.sub (Mat.smul update_w d) with
      | .error e => (theta_p, some e)
      | .ok g => threshold_loop P regularizer g

/-- The expression `norm(theta_k - theta_p) / norm(theta_k)` of lines 85 and 113.  `norm2` is
Armadillo's `norm` with the default `p = 2`.  The subtraction checks sizes; a zero
denominator gives a non-finite double, represented by `none`. -/
def delta_norm_of (norm2 : Mat K → K) (theta_k theta_p : Mat K) : Except ArmaError (Option K) :=
  match theta_k.sub theta_p with
  | .error e => .error e
  | .ok d => .ok (if norm2 theta_k = 0 then none else some (norm2 d / norm2 theta_k))

/-- The comparison `delta_norm < tol` of line 115; it is false for a non-finite `delta_norm`
(NaN or +infinity). -/
def lt_tol (delta_norm : Option K) (tol : K) : Bool :=
  match delta_norm with
  | none => false
  | some d => decide (d < tol)

/-- The local variables of `prox_gradient_mapping` that the loop reads and writes. -/
structure LoopState (K : Type) where
  theta_p : Mat K
  theta_k : Mat K
  update_w : K
  delta_norm : Option K
  state : Bool
  i : Int

/-- One pass of the body of the `while` loop, lines 91-118.  An exception raised outside the
`try` block (the subtraction of line 113) leaves the function. -/
def loop_body (norm2 : Mat K → K) (P : Nat) (cov_est theta_start : Mat K)
    (update_change regularizer tol : K) (s : LoopState K) : Except ArmaError (LoopState K) :=
  let t := try_block P cov_est regularizer s.theta_k s.theta_p s.update_w
  let theta_p := t.1
  -- lines 109-112
  let update_w := match t.2 with
    | some _ => s.update_w * update_change
    | none => s.update_w
  let theta_k := match t.2 with
    | some _ => theta_start
    | none => s.theta_k
  -- line 113
  match delta_norm_of norm2 theta_k theta_p with
  | .error e => .error e
  | .ok delta_norm =>
    -- lines 114-118
    .ok { theta_p := theta_p
          theta_k := theta_p
          update_w := update_w
          delta_norm := delta_norm
          state := if lt_tol delta_norm tol then false else s.state
          i := s.i + 1 }

/-- The loop `while (state and i < max_iter)` of line 89.  The result is the number of
passes through the body and the state in which the loop is left (or the exception that left
the function). -/
def while_loop (norm2 : Mat K → K) (P : Nat) (cov_est theta_start : Mat K)
    (update_change regularizer tol : K) (max_iter : Int) (s : LoopState K) :
    Nat × Except ArmaError (LoopState K) :=
  if _hguard : s.state = true ∧ s.i < max_iter then
    match hb : loop_body norm2 P cov_est theta_start update_change regularizer tol s with
    | .error e => (1, .error e)
    | .ok s' =>
      let r := while_loop norm2 P cov_est theta_start update_change regularizer tol max_iter s'
      (r.1 + 1, r.2)
  else (0, .ok s)
termination_by (max_iter - s.i).toNat
decreasing_by
  have hi : s'.i = s.i + 1 := by
    unfold loop_body at hb
    simp only at hb
    split at hb
    · exact absurd hb (by simp)
    · cases hb; rfl
  have := _hguard.2
  omega

/-- Lines 71-119 of `prox_gradient_mapping`: everything up to the `return`.  The result is
the number of passes of the loop and the final values of the local variables. -/
def prox_gradient_run (norm2 : Mat K → K) (data theta_start : Mat K)
    (update_w update_change regularizer : K) (max_iter : Int) (tol : K) :
    Nat × Except ArmaError (LoopState K) :=
  let P := data.n_cols
  let cov_est := cov data
  let theta_p : Mat K := eye P P
  let theta_k := theta_start
  -- line 85
  match delta_norm_of norm2 theta_k theta_p with
  | .error e => (0, .error e)
  | .ok delta_norm =>
    while_loop norm2 P cov_est theta_start update_change regularizer tol max_iter
      { theta_p := theta_p
        theta_k := theta_k
        update_w := update_w
        delta_norm := delta_norm
        state := false
        i := 0 }

/-- The function `prox_gradient_mapping`: `return(theta_p)`. -/
def prox_gradient_mapping (norm2 : Mat K → K) (data theta_start : Mat K)
    (update_w update_change regularizer : K) (max_iter : Int) (tol : K) :
    Except ArmaError (Mat K) :=
  match (prox_gradient_run norm2 data theta_start update_w update_change regularizer
      max_iter tol).2 with
  | .error e => .error e
  | .ok s => .ok s.theta_p

/-! ## `prox_gradient_ll` (lines 142-191) -/

/-- The function `prox_gradient_ll`.  `logf` and `sqrtf` are `log` and `sqrt` on doubles. -/
def prox_gradient_ll (logf sqrtf : K → K) (data theta_i : Mat K) (regularizer : K) :
    Except ArmaError K :=
  let N : Int := data.n_rows
  let P : Int := data.n_cols
  let S := cov data
  match theta_i.schur S with
  | .error e => .error e
  | .ok TdS =>
    let tr_TdS := TdS.trace
    match theta_i.log_det logf with
    | .error e => .error e
    | .ok (det, _) =>
      let ll := (N : K) * (1 / 2) * (-det + tr_TdS)
      let ll := ll + regularizer * sqrtf (logf (P : K) / (N : K)) * theta_i.norm1 * (1 / 2)
      .ok (-ll)

/-! ## Shape lemmas and the behaviour of the loop guard -/

/-- The subtraction of two matrices of the same size succeeds. -/
theorem sub_ok_of_shape (A B : Mat K) (hr : A.n_rows = B.n_rows) (hc : A.n_cols = B.n_cols) :
    A.sub B = .ok ⟨A.n_rows, A.n_cols,
      fun i j => A.elem i j - B.elem (Fin.cast hr i) (Fin.cast hc j)⟩ := by
  unfold Mat.sub
  rw [dif_pos ⟨hr, hc⟩]

/-- The subtraction of two matrices of different sizes raises the size error. -/
theorem sub_error_of_shape (A B : Mat K) (h : ¬ (A.n_rows = B.n_rows ∧ A.n_cols = B.n_cols)) :
    A.sub B = .error .incompatible_dimensions := by
  unfold Mat.sub
  rw [dif_neg h]

/-- When `state` is false the loop makes no pass and leaves the variables untouched. -/
theorem while_loop_of_state_false (norm2 : Mat K → K) (P : Nat) (cov_est theta_start : Mat K)
    (update_change regularizer tol : K) (max_iter : Int) (s : LoopState K)
    (hs : s.state = false) :
    while_loop norm2 P cov_est theta_start update_change regularizer tol max_iter s
      = (0, .ok s) := by
  rw [while_loop]
  simp [hs]

/-- When `i < max_iter` fails the loop makes no pass and leaves the variables untouched. -/
theorem while_loop_of_not_lt (norm2 : Mat K → K) (P : Nat) (cov_est theta_start : Mat K)
    (update_change regularizer tol : K) (max_iter : Int) (s : LoopState K)
    (hs : ¬ s.i < max_iter) :
    while_loop norm2 P cov_est theta_start update_change regularizer tol max_iter s
      = (0, .ok s) := by
  rw [while_loop]
  simp [hs]

/-- For a `P × P` `theta_start` the function reaches the loop, makes no pass, and the local
variables keep their initial values. -/
theorem prox_gradient_run_of_shape (norm2 : Mat K → K) (data theta_start : Mat K)
    (update_w update_change regularizer : K) (max_iter : Int) (tol : K)
    (hr : theta_start.n_rows = data.n_cols) (hc : theta_start.n_cols = data.n_cols) :
    ∃ d, prox_gradient_run norm2 data theta_start update_w update_change regularizer
        max_iter tol
      = (0, .ok { theta_p := eye data.n_cols data.n_cols
                  theta_k := theta_start
                  update_w := update_w
                  delta_norm := d
                  state := false
                  i := 0 }) := by
  unfold prox_gradient_run delta_norm_of
  simp only
  rw [sub_ok_of_shape theta_start (eye data.n_cols data.n_cols) hr hc]
  simp only
  exact ⟨_, while_loop_of_state_false _ _ _ _ _ _ _ _ _ rfl⟩

/-- For a `theta_start` that is not `P × P` the function is left at line 85 with the size error. -/
theorem prox_gradient_run_of_mismatch (norm2 : Mat K → K) (data theta_start : Mat K)
    (update_w update_change regularizer : K) (max_iter : Int) (tol : K)
    (h : ¬ (theta_start.n_rows = data.n_cols ∧ theta_start.n_cols = data.n_cols)) :
    prox_gradient_run norm2 data theta_start update_w update_change regularizer max_iter tol
      = (0, .error .incompatible_dimensions) := by
  unfold prox_gradient_run delta_norm_of
  simp only
  rw [sub_error_of_shape theta_start (eye data.n_cols data.n_cols) h]

/-- The inner `for` loop over the first `n` columns of row `j` of a `P × P` matrix. -/
theorem threshold_inner (P : Nat) (r : K) (f : Fin P → Fin P → K) (j : Nat) (hj : j < P) :
    ∀ n, n ≤ P →
      (List.range n).foldl (threshold_step r j) ((⟨P, P, f⟩ : Mat K), none)
        = (⟨P, P, fun a b => if a.val = j ∧ b.val < n then threshold_entry r (f a b) else f a b⟩,
            none) := by
  intro n
  induction n with
  | zero => intro _; simp
  | succ n ih =>
    intro hn
    have hn' : n < P := hn
    rw [List.range_succ, List.foldl_append, ih (Nat.le_of_lt hn')]
    simp only [List.foldl_cons, List.foldl_nil, threshold_step, threshold_at]
    rw [dif_pos ⟨hj, hn'⟩]
    simp only [Mat.set, lt_self_iff_false, and_false, if_false]
    congr 2
    funext a b
    by_cases ha : a.val = j
    · by_cases hb : b.val = n
      · have ea : a = ⟨j, hj⟩ := Fin.ext ha
        have eb : b = ⟨n, hn'⟩ := Fin.ext hb
        subst ea; subst eb
        simp
      · by_cases hb' : b.val < n
        · have : b.val < n + 1 := by omega
          simp [ha, hb, hb', this]
        · have : ¬ b.val < n + 1 := by omega
          simp [ha, hb, hb', this]
    · simp [ha]

/-- The outer `for` loop over the first `m` rows of a `P × P` matrix. -/
theorem threshold_outer (P : Nat) (r : K) (f : Fin P → Fin P → K) :
    ∀ m, m ≤ P →
      (List.range m).foldl
          (fun st j => (List.range P).foldl (threshold_step r j) st) ((⟨P, P, f⟩ : Mat K), none)
        = (⟨P, P, fun a b => if a.val < m then threshold_entry r (f a b) else f a b⟩, none) := by
  intro m
  induction m with
  | zero => intro _; simp
  | succ m ih =>
    intro hm
    have hm' : m < P := hm
    rw [List.range_succ, List.foldl_append, ih (Nat.le_of_lt hm')]
    simp only [List.foldl_cons, List.foldl_nil]
    rw [threshold_inner P r _ m hm' P le_rfl]
    congr 2
    funext a b
    by_cases ha : a.val = m
    · have : a.val < m + 1 := by omega
      simp [ha, b.isLt]
    · by_cases ha' : a.val < m
      · have : a.val < m + 1 := by omega
        simp [ha, ha', this]
      · have : ¬ a.val < m + 1 := by omega
        simp [ha, ha', this]

/-- On a `P × P` matrix the two nested loops raise nothing and apply `threshold_entry` to every
entry. -/
theorem threshold_loop_square (P : Nat) (r : K) (f : Fin P → Fin P → K) :
    threshold_loop P r (⟨P, P, f⟩ : Mat K)
      = (⟨P, P, fun a b => threshold_entry r (f a b)⟩, none) := by
  unfold threshold_loop
  rw [threshold_outer P r f P le_rfl]
  congr 2
  funext a b
  simp [a.isLt]

/-- A pass of the loop body either is left by the size check of line 113 or completes with `i`
increased by one. -/
theorem loop_body_counter (norm2 : Mat K → K) (P : Nat) (cov_est theta_start : Mat K)
    (update_change regularizer tol : K) (s : LoopState K) :
    loop_body norm2 P cov_est theta_start update_change regularizer tol s
        = .error .incompatible_dimensions
      ∨ ∃ s', loop_body norm2 P cov_est theta_start update_change regularizer tol s = .ok s'
          ∧ s'.i = s.i + 1 := by
  unfold loop_body delta_norm_of
  simp only
  split
  · rename_i e he
    split at he
    · rename_i e' he'
      unfold Mat.sub at he'
      split at he'
      · exact absurd he' (by simp)
      · cases he'; cases he; exact Or.inl rfl
    · exact absurd he (by simp)
  · exact Or.inr ⟨_, rfl, rfl⟩

/-- From a state with `max_iter - i = n` (truncated at 0) the loop makes at most `n` passes. -/
theorem while_loop_passes_le (norm2 : Mat K → K) (P : Nat) (cov_est theta_start : Mat K)
    (update_change regularizer tol : K) (max_iter : Int) :
    ∀ (n : Nat) (s : LoopState K), (max_iter - s.i).toNat = n →
      (while_loop norm2 P cov_est theta_start update_change regularizer tol max_iter s).1
        ≤ n := by
  intro n
  induction n using Nat.strong_induction_on with
  | _ n ih =>
    intro s hn
    rw [while_loop]
    split
    · rename_i hg
      split
      · simp only
        have := hg.2
        omega
      · rename_i s' hb
        simp only
        rcases loop_body_counter norm2 P cov_est theta_start update_change regularizer tol s
          with he | ⟨t, ht, hi⟩
        · rw [he] at hb; exact absurd hb (by simp)
        · have hi' : s'.i = s.i + 1 := by
            rw [ht] at hb
            cases hb
            exact hi
          have hlt : (max_iter - s'.i).toNat < n := by
            have := hg.2
            omega
          have := ih _ hlt s' rfl
          omega
    · simp

/-- The result of `inv` on a square matrix. -/
theorem inv_square (P : Nat) (f : Fin P → Fin P → K) :
    (⟨P, P, f⟩ : Mat K).inv
      = if Matrix.det (f : Matrix (Fin P) (Fin P) K) = 0 then .error .singular
        else .ok ⟨P, P, fun i j => (Matrix.det (f : Matrix (Fin P) (Fin P) K))⁻¹
            * Matrix.adjugate (f : Matrix (Fin P) (Fin P) K) i j⟩ := by
  have hsq : (⟨P, P, f⟩ : Mat K).toSquare rfl = (f : Matrix (Fin P) (Fin P) K) := by
    funext i j
    simp [Mat.toSquare]
  unfold Mat.inv
  rw [dif_pos rfl, hsq]

/-- The `try` block with a singular `theta_k`: `inv` throws and `theta_p` is unchanged. -/
theorem try_block_singular (P : Nat) (cov_est theta_p : Mat K) (regularizer update_w : K)
    (f : Fin P → Fin P → K) (hdet : Matrix.det (f : Matrix (Fin P) (Fin P) K) = 0) :
    try_block P cov_est regularizer ⟨P, P, f⟩ theta_p update_w = (theta_p, some .singular) := by
  unfold try_block
  rw [inv_square, if_pos hdet]

/-- The `try` block with an invertible `P × P` `theta_k` and a `P × P` `cov_est`: the new
`theta_p` is the thresholded gradient step. -/
theorem try_block_ok (P : Nat) (theta_p : Mat K) (regularizer update_w : K)
    (S f : Fin P → Fin P → K) (hdet : Matrix.det (f : Matrix (Fin P) (Fin P) K) ≠ 0) :
    try_block P ⟨P, P, S⟩ regularizer ⟨P, P, f⟩ theta_p update_w
      = (⟨P, P, fun a b => threshold_entry regularizer
            (f a b - update_w * (S a b - (Matrix.det (f : Matrix (Fin P) (Fin P) K))⁻¹
              * Matrix.adjugate (f : Matrix (Fin P) (Fin P) K) a b))⟩, none) := by
  unfold try_block
  rw [inv_square, if_neg hdet]
  simp only [Mat.sub, Mat.smul, and_self, dite_true, Fin.cast_eq_self]
  exact threshold_loop_square P regularizer _

/-- With at least two rows and one column `cov` is the covariance of the columns. -/
theorem cov_of_two_le (N P : Nat) (x : Fin N → Fin P → K) (hN : 2 ≤ N) (hP : 1 ≤ P) :
    cov (⟨N, P, x⟩ : Mat K) = cov_cols N P x := by
  unfold cov
  have h1 : ¬ (N = 0 ∨ P = 0) := by omega
  have h2 : ¬ N = 1 := by omega
  simp only [h1, h2, if_false, dite_false]

/-- With at least two rows `cov` is `P × P`, for `P` the number of columns. -/
theorem cov_shape (X : Mat K) (hN : 2 ≤ X.n_rows) :
    (cov X).n_rows = X.n_cols ∧ (cov X).n_cols = X.n_cols := by
  unfold cov
  by_cases hP : X.n_cols = 0
  · simp [hP, Mat.empty]
  · have h1 : ¬ (X.n_rows = 0 ∨ X.n_cols = 0) := by omega
    have h2 : ¬ X.n_rows = 1 := by omega
    simp [h1, h2, cov_cols]

/-- A pass of the loop body that goes through the `catch` block. -/
theorem loop_body_of_catch (norm2 : Mat K → K) (P : Nat) (cov_est theta_start : Mat K)
    (update_change regularizer tol : K) (s : LoopState K) (p d : Mat K) (e : ArmaError)
    (htry : try_block P cov_est regularizer s.theta_k s.theta_p s.update_w = (p, some e))
    (hsub : theta_start.sub p = .ok d) :
    ∃ dn, loop_body norm2 P cov_est theta_start update_change regularizer tol s
      = .ok { theta_p := p
              theta_k := p
              update_w := s.update_w * update_change
              delta_norm := dn
              state := if lt_tol dn tol then false else s.state
              i := s.i + 1 } := by
  unfold loop_body delta_norm_of
  simp only [htry, hsub]
  exact ⟨_, rfl⟩

/-- A pass of the loop body whose `try` block raises nothing. -/
theorem loop_body_of_success (norm2 : Mat K → K) (P : Nat) (cov_est theta_start : Mat K)
    (update_change regularizer tol : K) (s : LoopState K) (p d : Mat K)
    (htry : try_block P cov_est regularizer s.theta_k s.theta_p s.update_w = (p, none))
    (hsub : s.theta_k.sub p = .ok d) :
    ∃ dn, loop_body norm2 P cov_est theta_start update_change regularizer tol s
      = .ok { theta_p := p
              theta_k := p
              update_w := s.update_w
              delta_norm := dn
              state := if lt_tol dn tol then false else s.state
              i := s.i + 1 } := by
  unfold loop_body delta_norm_of
  simp only [htry, hsub]
  exact ⟨_, rfl⟩

/-- A loop that is entered with one iteration left makes exactly one pass. -/
theorem while_loop_single_pass (norm2 : Mat K → K) (P : Nat) (cov_est theta_start : Mat K)
    (update_change regularizer tol : K) (max_iter : Int) (s s' : LoopState K)
    (hstate : s.state = true) (hlt : s.i < max_iter) (hlast : ¬ s.i + 1 < max_iter)
    (hbody : loop_body norm2 P cov_est theta_start update_change regularizer tol s = .ok s') :
    while_loop norm2 P cov_est theta_start update_change regularizer tol max_iter s
      = (1, .ok s') := by
  have hi : s'.i = s.i + 1 := by
    rcases loop_body_counter norm2 P cov_est theta_start update_change regularizer tol s
      with he | ⟨t, ht, hi⟩
    · rw [he] at hbody; exact absurd hbody (by simp)
    · rw [ht] at hbody; cases hbody; exact hi
  rw [while_loop, dif_pos ⟨hstate, hlt⟩]
  split
  · rename_i e he
    rw [hbody] at he
    exact absurd he (by simp)
  · rename_i t ht
    rw [hbody] at ht
    cases ht
    rw [while_loop_of_not_lt _ _ _ _ _ _ _ _ _ (by rw [hi]; exact hlast)]

/-! ## The likelihood evaluator: shapes, sample covariances, norms -/

/-- The trace of a square matrix is the sum of its diagonal. -/
theorem trace_square (P : Nat) (f : Fin P → Fin P → K) :
    (⟨P, P, f⟩ : Mat K).trace = ∑ i : Fin P, f i i := by
  unfold Mat.trace
  exact Fintype.sum_equiv (finCongr (Nat.min_self P)) _ _ (fun i => rfl)

/-- The result of `log_det` on a square matrix. -/
theorem log_det_square (logf : K → K) (P : Nat) (f : Fin P → Fin P → K) :
    (⟨P, P, f⟩ : Mat K).log_det logf
      = .ok (logf |Matrix.det (f : Matrix (Fin P) (Fin P) K)|,
          signOf (Matrix.det (f : Matrix (Fin P) (Fin P) K))) := by
  have hsq : (⟨P, P, f⟩ : Mat K).toSquare rfl = (f : Matrix (Fin P) (Fin P) K) := by
    funext i j
    simp [Mat.toSquare]
  unfold Mat.log_det
  rw [dif_pos rfl, hsq]

/-- The value of `prox_gradient_ll` when the covariance of the data is the `P × P` matrix `S`. -/
theorem prox_gradient_ll_square (logf sqrtf : K → K) (data : Mat K) (P : Nat)
    (theta S : Matrix (Fin P) (Fin P) K) (regularizer : K) (hS : cov data = Mat.ofMatrix S) :
    prox_gradient_ll logf sqrtf data (Mat.ofMatrix theta) regularizer
      = .ok (-(((data.n_rows : Int) : K) * (1 / 2)
            * (-logf |theta.det| + ∑ i : Fin P, theta i i * S i i)
          + regularizer * sqrtf (logf ((data.n_cols : Int) : K) / ((data.n_rows : Int) : K))
            * (Mat.ofMatrix theta).norm1 * (1 / 2))) := by
  unfold prox_gradient_ll
  simp only
  generalize cov data = C at hS
  subst hS
  simp only [Mat.ofMatrix, Mat.schur, and_self, dite_true, Fin.cast_eq_self, log_det_square,
    trace_square]

/-- The covariance of the three observations `(-3, 0)`, `(0, 1)`, `(3, -1)`. -/
theorem cov_sample_scaled :
    cov (⟨3, 2, !![-3, 0; 0, 1; 3, -1]⟩ : Mat K) = Mat.ofMatrix !![9, -3 / 2; -3 / 2, 1] := by
  rw [cov_of_two_le _ _ _ (by decide) (by decide)]
  simp only [cov_cols, Mat.ofMatrix, Mat.mk.injEq, heq_eq_eq, true_and]
  funext j k
  fin_cases j <;> fin_cases k <;>
    norm_num [Fin.sum_univ_three, cov_norm_val]

/-- The covariance of the three observations `(1, 0)`, `(-1, 1)`, `(0, -1)`. -/
theorem cov_sample_unit :
    cov (⟨3, 2, !![1, 0; -1, 1; 0, -1]⟩ : Mat K) = Mat.ofMatrix !![1, -1 / 2; -1 / 2, 1] := by
  rw [cov_of_two_le _ _ _ (by decide) (by decide)]
  simp only [cov_cols, Mat.ofMatrix, Mat.mk.injEq, heq_eq_eq, true_and]
  funext j k
  fin_cases j <;> fin_cases k <;>
    norm_num [Fin.sum_univ_three, cov_norm_val]

/-- A running maximum is at least its initial value. -/
theorem foldl_max_ge_init {α : Type} (g : α → K) (l : List α) (a : K) :
    a ≤ l.foldl (fun acc j => max acc (g j)) a := by
  induction l generalizing a with
  | nil => exact le_rfl
  | cons x xs ih => exact le_trans (le_max_left a (g x)) (ih _)

/-- A running maximum is at least every value it has seen. -/
theorem foldl_max_ge_mem {α : Type} (g : α → K) (l : List α) (a : K) (x : α) (hx : x ∈ l) :
    g x ≤ l.foldl (fun acc j => max acc (g j)) a := by
  induction l generalizing a with
  | nil => cases hx
  | cons y ys ih =>
    rcases List.mem_cons.mp hx with h | h
    · subst h
      exact le_trans (le_max_right a (g x)) (foldl_max_ge_init g ys _)
    · exact ih _ h

/-- A running maximum is its initial value or one of the values it has seen. -/
theorem foldl_max_attained {α : Type} (g : α → K) (l : List α) (a : K) :
    l.foldl (fun acc j => max acc (g j)) a = a
      ∨ ∃ x ∈ l, l.foldl (fun acc j => max acc (g j)) a = g x := by
  induction l generalizing a with
  | nil => exact Or.inl rfl
  | cons y ys ih =>
    rcases ih (max a (g y)) with h | ⟨x, hx, h⟩
    · rcases max_choice a (g y) with hm | hm
      · exact Or.inl (by simp only [List.foldl_cons]; rw [h, hm])
      · exact Or.inr ⟨y, List.mem_cons_self _ _, by simp only [List.foldl_cons]; rw [h, hm]⟩
    · exact Or.inr ⟨x, List.mem_cons_of_mem _ hx, h⟩

/-- An absolute column sum is at most the sum of the absolute values of all entries. -/
theorem abs_col_sum_le_abs_sum (A : Mat K) (j : Fin A.n_cols) : A.abs_col_sum j ≤ A.abs_sum := by
  unfold Mat.abs_col_sum Mat.abs_sum
  refine Finset.sum_le_sum (fun i _ => ?_)
  exact Finset.single_le_sum (f := fun j => |A.elem i j|) (fun _ _ => abs_nonneg _)
    (Finset.mem_univ j)

/-- For a matrix with one column the sum of all absolute values is the absolute column sum. -/
theorem norm1_vector_eq (A : Mat K) (h : A.n_cols = 1) (j : Fin A.n_cols) :
    A.abs_sum = A.abs_col_sum j := by
  obtain ⟨r, c, f⟩ := A
  simp only at h
  subst h
  unfold Mat.abs_sum Mat.abs_col_sum
  refine Finset.sum_congr rfl (fun i _ => ?_)
  simp only [Fin.sum_univ_one]
  congr 2
  exact (Subsingleton.elim _ _)

/-- The trace of a real symmetric matrix is the sum of its eigenvalues. -/
theorem trace_eq_sum_eigenvalues_real (P : Nat) (A : Matrix (Fin P) (Fin P) ℝ)
    (hA : A.IsHermitian) : A.trace = ∑ i, hA.eigenvalues i := by
  have h := congrArg Matrix.trace hA.spectral_theorem
  rw [Matrix.trace_mul_cycle, unitary.coe_star_mul_self, one_mul, Matrix.trace_diagonal] at h
  simpa using h

/-- For a positive definite real `P × P` matrix other than the identity,
`log det A < trace A - P`. -/
theorem log_det_lt_trace_sub_card (P : Nat) (A : Matrix (Fin P) (Fin P) ℝ) (hA : A.PosDef)
    (hne : A ≠ 1) : Real.log A.det < A.trace - P := by
  have hpos : ∀ i, 0 < hA.1.eigenvalues i := fun i => hA.eigenvalues_pos i
  have hdet : A.det = ∏ i, hA.1.eigenvalues i := by
    have := hA.1.det_eq_prod_eigenvalues
    simpa using this
  rw [hdet, trace_eq_sum_eigenvalues_real P A hA.1,
    Real.log_prod _ _ (fun i _ => (hpos i).ne')]
  have hcard : ((P : ℕ) : ℝ) = ∑ _i : Fin P, (1 : ℝ) := by simp
  rw [hcard, ← Finset.sum_sub_distrib]
  have hex : ∃ i, hA.1.eigenvalues i ≠ 1 := by
    by_contra hall
    push_neg at hall
    apply hne
    have hs := hA.1.spectral_theorem
    have hd : Matrix.diagonal (RCLike.ofReal ∘ hA.1.eigenvalues)
        = (1 : Matrix (Fin P) (Fin P) ℝ) := by
      have hf : (RCLike.ofReal ∘ hA.1.eigenvalues : Fin P → ℝ) = fun _ => 1 := by
        funext i
        simp [hall i]
      rw [hf]
      exact Matrix.diagonal_one
    rw [hd, mul_one, (Matrix.mem_unitaryGroup_iff).mp (hA.1.eigenvectorUnitary).2] at hs
    exact hs
  obtain ⟨i, hi⟩ := hex
  exact Finset.sum_lt_sum
    (fun j _ => Real.log_le_sub_one_of_pos (hpos j))
    ⟨i, Finset.mem_univ i, Real.log_lt_sub_one_of_pos (hpos i) hi⟩

/-- The matrix `eye<mat>(P, P)` is the identity matrix. -/
theorem eye_eq_one (P : Nat) : (eye P P : Mat K) = Mat.ofMatrix (1 : Matrix (Fin P) (Fin P) K) := by
  simp only [eye, Mat.ofMatrix, Mat.mk.injEq, heq_eq_eq, true_and]
  funext i j
  simp [Matrix.one_apply, Fin.ext_iff]

/-- On a matrix with non-zero determinant `inv` returns the matrix inverse. -/
theorem inv_of_det_ne_zero (P : Nat) (S : Matrix (Fin P) (Fin P) K) (hdet : S.det ≠ 0) :
    (Mat.ofMatrix S).inv = .ok (Mat.ofMatrix S⁻¹) := by
  rw [Mat.ofMatrix, inv_square, if_neg hdet, Mat.ofMatrix, Matrix.inv_def,
    Ring.inverse_eq_inv']
  rfl

/-- A real symmetric 2 × 2 matrix with positive first entry and positive determinant is
positive definite. -/
theorem posDef_two_by_two (a b d : ℝ) (ha : 0 < a) (hdet : b ^ 2 < a * d) :
    (!![a, b; b, d] : Matrix (Fin 2) (Fin 2) ℝ).PosDef := by
  refine ⟨?_, ?_⟩
  · ext i j
    fin_cases i <;> fin_cases j <;> simp [Matrix.conjTranspose_apply]
  · intro v hv
    have hq : Matrix.dotProduct (star v) ((!![a, b; b, d] : Matrix (Fin 2) (Fin 2) ℝ).mulVec v)
        = a * v 0 ^ 2 + 2 * b * (v 0 * v 1) + d * v 1 ^ 2 := by
      simp [Matrix.dotProduct, Matrix.mulVec, Fin.sum_univ_two]
      ring
    rw [hq]
    have hne : v 0 ≠ 0 ∨ v 1 ≠ 0 := by
      by_contra hcon
      push_neg at hcon
      apply hv
      funext i
      fin_cases i
      · exact hcon.1
      · exact hcon.2
    have key : a * (a * v 0 ^ 2 + 2 * b * (v 0 * v 1) + d * v 1 ^ 2)
        = (a * v 0 + b * v 1) ^ 2 + (a * d - b ^ 2) * v 1 ^ 2 := by ring
    have hpos : 0 < (a * v 0 + b * v 1) ^ 2 + (a * d - b ^ 2) * v 1 ^ 2 := by
      rcases eq_or_ne (v 1) 0 with h1 | h1
      · have h0 : v 0 ≠ 0 := by
          rcases hne with h | h
          · exact h
          · exact absurd h1 h
        rw [h1]
        have : 0 < (a * v 0) ^ 2 := by positivity
        simpa using this
      · have h2 : 0 < (a * d - b ^ 2) * v 1 ^ 2 := by
          have : 0 < v 1 ^ 2 := by positivity
          exact mul_pos (by linarith) this
        nlinarith [sq_nonneg (a * v 0 + b * v 1)]
    rw [← key] at hpos
    exact (mul_pos_iff_of_pos_left ha).mp hpos

/-- The covariance of the three observations `(1, 1)`, `(-1, 1)`, `(0, -2)`. -/
theorem cov_sample_diagonal :
    cov (⟨3, 2, !![1, 1; -1, 1; 0, -2]⟩ : Mat K) = Mat.ofMatrix !![1, 0; 0, 3] := by
  rw [cov_of_two_le _ _ _ (by decide) (by decide)]
  simp only [cov_cols, Mat.ofMatrix, Mat.mk.injEq, heq_eq_eq, true_and]
  funext j k
  fin_cases j <;> fin_cases k <;>
    norm_num [Fin.sum_univ_three, cov_norm_val]

/-- For an invertible diagonal `S` the diagonal products of `inverse(S)` and `S` are all 1. -/
theorem inv_diag_mul_diag (P : Nat) (S : Matrix (Fin P) (Fin P) K) (hdet : S.det ≠ 0)
    (hdiag : ∀ i j, i ≠ j → S i j = 0) (i : Fin P) : S⁻¹ i i * S i i = 1 := by
  have h := Matrix.nonsing_inv_mul S hdet.isUnit
  have hi := congrFun (congrFun h i) i
  rw [Matrix.mul_apply, Matrix.one_apply_eq,
    Finset.sum_eq_single i (fun k _ hk => by rw [hdiag k i hk, mul_zero])
      (fun hni => absurd (Finset.mem_univ i) hni)] at hi
  exact hi

/-! ## Symmetry, the fixed point and univariate data -/

/-- The inverse of a symmetric matrix, as `inv` computes it, is symmetric. -/
theorem inv_entries_symm (P : Nat) (f : Matrix (Fin P) (Fin P) K) (hf : f.IsSymm)
    (a b : Fin P) : f.det⁻¹ * f.adjugate a b = f.det⁻¹ * f.adjugate b a := by
  have h : f.adjugate.transpose = f.adjugate := by
    rw [Matrix.adjugate_transpose, hf.eq]
  have := congrFun (congrFun h a) b
  rw [Matrix.transpose_apply] at this
  rw [this]

/-- The `try` block on a symmetric invertible `theta_k` and a symmetric `cov_est` leaves a
symmetric proposal. -/
theorem try_block_symm (P : Nat) (f S : Matrix (Fin P) (Fin P) K) (hf : f.IsSymm)
    (hdet : f.det ≠ 0) (hS : S.IsSymm) (theta_p : Mat K) (update_w regularizer : K) :
    ∃ g : Matrix (Fin P) (Fin P) K,
      try_block P (Mat.ofMatrix S) regularizer (Mat.ofMatrix f) theta_p update_w
          = (Mat.ofMatrix g, none)
        ∧ g.IsSymm
        ∧ ∀ a b, g a b = threshold_entry regularizer
            (f a b - update_w * (S a b - f.det⁻¹ * f.adjugate a b)) := by
  refine ⟨fun a b => threshold_entry regularizer
      (f a b - update_w * (S a b - f.det⁻¹ * f.adjugate a b)), ?_, ?_, fun _ _ => rfl⟩
  · exact try_block_ok P theta_p regularizer update_w S f hdet
  · ext a b
    rw [Matrix.transpose_apply]
    show threshold_entry regularizer (f b a - update_w * (S b a - f.det⁻¹ * f.adjugate b a))
      = threshold_entry regularizer (f a b - update_w * (S a b - f.det⁻¹ * f.adjugate a b))
    rw [hf.apply a b, hS.apply a b, inv_entries_symm P f hf b a]

/-- A pass of the loop body keeps `theta_p` and `theta_k` symmetric `P × P` matrices, and it
completes. -/
theorem loop_body_symm (norm2 : Mat K → K) (P : Nat) (S : Matrix (Fin P) (Fin P) K)
    (hS : S.IsSymm) (theta_start : Mat K) (hstart : theta_start.IsSymm P)
    (update_change regularizer tol : K) (s : LoopState K)
    (hp : s.theta_p.IsSymm P) (hk : s.theta_k.IsSymm P) :
    ∃ s', loop_body norm2 P (Mat.ofMatrix S) theta_start update_change regularizer tol s = .ok s'
      ∧ s'.theta_p.IsSymm P ∧ s'.theta_k.IsSymm P := by
  obtain ⟨tp, tk, w, dn, st, i⟩ := s
  simp only at hp hk
  obtain ⟨f, rfl, hf⟩ := hk
  obtain ⟨p, rfl, hpsymm⟩ := hp
  obtain ⟨t0, rfl, _⟩ := hstart
  by_cases hdet : f.det = 0
  · have htry := try_block_singular P (Mat.ofMatrix S) (Mat.ofMatrix p) regularizer w f hdet
    obtain ⟨dn', hbody⟩ := loop_body_of_catch norm2 P (Mat.ofMatrix S) (Mat.ofMatrix t0)
      update_change regularizer tol
      { theta_p := Mat.ofMatrix p, theta_k := Mat.ofMatrix f, update_w := w, delta_norm := dn,
        state := st, i := i } (Mat.ofMatrix p) _ .singular htry
      (sub_ok_of_shape (Mat.ofMatrix t0) (Mat.ofMatrix p) rfl rfl)
    exact ⟨_, hbody, ⟨p, rfl, hpsymm⟩, ⟨p, rfl, hpsymm⟩⟩
  · obtain ⟨g, htry, hg, _⟩ := try_block_symm P f S hf hdet hS (Mat.ofMatrix p) w regularizer
    obtain ⟨dn', hbody⟩ := loop_body_of_success norm2 P (Mat.ofMatrix S) (Mat.ofMatrix t0)
      update_change regularizer tol
      { theta_p := Mat.ofMatrix p, theta_k := Mat.ofMatrix f, update_w := w, delta_norm := dn,
        state := st, i := i } (Mat.ofMatrix g) _ htry
      (sub_ok_of_shape (Mat.ofMatrix f) (Mat.ofMatrix g) rfl rfl)
    exact ⟨_, hbody, ⟨g, rfl, hg⟩, ⟨g, rfl, hg⟩⟩

/-- The loop keeps `theta_p` and `theta_k` symmetric `P × P` matrices, and it completes. -/
theorem while_loop_symm (norm2 : Mat K → K) (P : Nat) (S : Matrix (Fin P) (Fin P) K)
    (hS : S.IsSymm) (theta_start : Mat K) (hstart : theta_start.IsSymm P)
    (update_change regularizer tol : K) (max_iter : Int) :
    ∀ (n : Nat) (s : LoopState K), (max_iter - s.i).toNat = n →
      s.theta_p.IsSymm P → s.theta_k.IsSymm P →
      ∃ s', (while_loop norm2 P (Mat.ofMatrix S) theta_start update_change regularizer tol
          max_iter s).2 = .ok s' ∧ s'.theta_p.IsSymm P ∧ s'.theta_k.IsSymm P := by
  intro n
  induction n using Nat.strong_induction_on with
  | _ n ih =>
    intro s hn hp hk
    rw [while_loop]
    split
    · rename_i hg
      obtain ⟨t, ht, htp, htk⟩ := loop_body_symm norm2 P S hS theta_start hstart update_change
        regularizer tol s hp hk
      have hi : t.i = s.i + 1 := by
        rcases loop_body_counter norm2 P (Mat.ofMatrix S) theta_start update_change regularizer
          tol s with he | ⟨u, hu, hi⟩
        · rw [he] at ht; exact absurd ht (by simp)
        · rw [hu] at ht; cases ht; exact hi
      split
      · rename_i e he
        rw [ht] at he
        exact absurd he (by simp)
      · rename_i u hu
        rw [ht] at hu
        cases hu
        have hlt : (max_iter - t.i).toNat < n := by
          have := hg.2
          omega
        exact ih _ hlt t rfl htp htk
    · exact ⟨s, rfl, hp, hk⟩

/-- The covariance of the columns of a table is a symmetric matrix. -/
theorem cov_cols_symm (N P : Nat) (x : Fin N → Fin P → K) : (cov_cols N P x).IsSymm P := by
  refine ⟨(cov_cols N P x).elem, rfl, ?_⟩
  ext a b
  simp only [Matrix.transpose_apply, cov_cols]
  congr 1
  refine Finset.sum_congr rfl (fun i _ => ?_)
  ring

/-- The identity matrix is symmetric. -/
theorem eye_symm (P : Nat) : (eye P P : Mat K).IsSymm P := by
  refine ⟨1, eye_eq_one P, ?_⟩
  exact Matrix.isSymm_one

/-- The sum of the absolute values of the entries of a zero matrix is zero. -/
theorem abs_sum_of_zero (A : Mat K) (h : ∀ i j, A.elem i j = 0) : A.abs_sum = 0 := by
  unfold Mat.abs_sum
  simp [h]

/-- A matrix whose absolute values sum to zero has only zero entries. -/
theorem zero_of_abs_sum (A : Mat K) (h : A.abs_sum = 0) : ∀ i j, A.elem i j = 0 := by
  intro i j
  unfold Mat.abs_sum at h
  have h1 := (Finset.sum_eq_zero_iff_of_nonneg
    (fun i _ => Finset.sum_nonneg (fun j _ => abs_nonneg (A.elem i j)))).mp h i (Finset.mem_univ i)
  have h2 := (Finset.sum_eq_zero_iff_of_nonneg
    (fun j _ => abs_nonneg (A.elem i j))).mp h1 j (Finset.mem_univ j)
  exact abs_eq_zero.mp h2

/-- The covariance of data with one column and at least one row is a 1 × 1 matrix. -/
theorem cov_one_column (N : Nat) (hN : 1 ≤ N) (x : Fin N → Fin 1 → K) :
    ∃ S : Matrix (Fin 1) (Fin 1) K, cov (⟨N, 1, x⟩ : Mat K) = Mat.ofMatrix S := by
  unfold cov
  have h1 : ¬ (N = 0 ∨ 1 = 0) := by omega
  simp only [h1, if_false]
  by_cases h2 : N = 1
  · simp only [h2, dite_true]
    exact ⟨_, rfl⟩
  · simp only [h2, dite_false]
    exact ⟨_, rfl⟩

/-- The pass of the loop body started at `theta_k = inverse(S)` with `regularizer = 0`. -/
theorem try_block_at_inverse (P : Nat) (S : Matrix (Fin P) (Fin P) K) (hdet : S.det ≠ 0)
    (theta_p : Mat K) (update_w : K) :
    try_block P (Mat.ofMatrix S) 0 (Mat.ofMatrix S⁻¹) theta_p update_w
      = (Mat.ofMatrix S⁻¹, none) := by
  have hunit : IsUnit S.det := hdet.isUnit
  have hdet' : (S⁻¹).det ≠ 0 := by
    rw [Matrix.det_nonsing_inv, Ring.inverse_eq_inv']
    exact inv_ne_zero hdet
  have hinvinv : ∀ a b, (S⁻¹).det⁻¹ * (S⁻¹).adjugate a b = S a b := by
    intro a b
    have h := Matrix.nonsing_inv_nonsing_inv S hunit
    rw [Matrix.inv_def (A := S⁻¹), Ring.inverse_eq_inv'] at h
    have := congrFun (congrFun h a) b
    simpa using this
  rw [Mat.ofMatrix, Mat.ofMatrix, try_block_ok P theta_p 0 update_w S
    (S⁻¹ : Matrix (Fin P) (Fin P) K) hdet']
  simp only [Mat.mk.injEq, heq_eq_eq, true_and, Prod.mk.injEq, and_true]
  funext a b
  rw [hinvinv a b, sub_self, mul_zero, sub_zero]
  unfold threshold_entry
  by_cases h1 : S⁻¹ a b ≤ 0
  · simp [h1]
  · have h2 : S⁻¹ a b ≥ 0 := le_of_lt (not_le.mp h1)
    simp [h1, h2]

/-! ## The claims -/

/-- C1 (code defect): with `max_iter = 1` the claim promises the soft-thresholded gradient step.
At the input `data = [[0],[2]]`, `theta_start = [[1]]`, `update_w = 1/2`, `regularizer = 0`
the function returns the identity `[[1]]`, while the gradient step followed by the proximal
step (the `try` block of the loop body, run on the initial values) gives `[[1/2]]`: the loop
guard `state and i < max_iter` is false on entry because `state` starts as `false`.  Entered
with `state = true`, the same loop makes one pass and leaves `theta_p = [[1/2]]`. -/
theorem prox_gradient_mapping_max_iter_one_skips_step :
    (∀ norm2 : Mat ℚ → ℚ,
        prox_gradient_mapping norm2 (Mat.ofMatrix !![0; 2]) (Mat.ofMatrix !![1])
          (1 / 2) (1 / 2) 0 1 0 = .ok (Mat.ofMatrix !![1]))
      ∧ try_block 1 (cov (Mat.ofMatrix !![(0 : ℚ); 2])) 0 (Mat.ofMatrix !![1]) (eye 1 1) (1 / 2)
          = (Mat.ofMatrix !![1 / 2], none)
      ∧ Mat.ofMatrix !![(1 : ℚ)] ≠ Mat.ofMatrix !![1 / 2]
      ∧ (∀ norm2 : Mat ℚ → ℚ, ∃ s : LoopState ℚ,
          while_loop norm2 1 (cov (Mat.ofMatrix !![(0 : ℚ); 2])) (Mat.ofMatrix !![1]) (1 / 2)
              0 0 1
              { theta_p := eye 1 1, theta_k := Mat.ofMatrix !![1], update_w := 1 / 2,
                delta_norm := none, state := true, i := 0 } = (1, .ok s)
            ∧ s.theta_p = Mat.ofMatrix !![1 / 2]) := by
  have htry : try_block 1 (cov (Mat.ofMatrix !![(0 : ℚ); 2])) 0 (Mat.ofMatrix !![1]) (eye 1 1)
      (1 / 2) = (Mat.ofMatrix !![1 / 2], none) := by
    rw [Mat.ofMatrix, cov_of_two_le _ _ _ (by decide) (by decide), cov_cols, Mat.ofMatrix,
      try_block_ok 1 _ _ _ _ _ (by simp)]
    simp only [Mat.ofMatrix, Mat.mk.injEq, heq_eq_eq, true_and, Prod.mk.injEq, and_true]
    funext j k
    fin_cases j; fin_cases k
    simp [Fin.sum_univ_two, cov_norm_val, threshold_entry]
    norm_num
  refine ⟨?_, htry, ?_, ?_⟩
  · intro norm2
    obtain ⟨d, hd⟩ := prox_gradient_run_of_shape norm2 (Mat.ofMatrix !![(0 : ℚ); 2])
      (Mat.ofMatrix !![1]) (1 / 2) (1 / 2) 0 1 0 rfl rfl
    unfold prox_gradient_mapping
    rw [hd]
    simp only [Mat.ofMatrix, eye, Mat.mk.injEq, heq_eq_eq, true_and, Except.ok.injEq]
    funext i j
    fin_cases i; fin_cases j
    simp
  · intro h
    simp only [Mat.ofMatrix, Mat.mk.injEq, heq_eq_eq, true_and] at h
    have := congrFun (congrFun h 0) 0
    norm_num at this
  · intro norm2
    obtain ⟨dn, hdn⟩ := loop_body_of_success norm2 1 (cov (Mat.ofMatrix !![(0 : ℚ); 2]))
      (Mat.ofMatrix !![1]) (1 / 2) 0 0
      { theta_p := eye 1 1, theta_k := Mat.ofMatrix !![1], update_w := 1 / 2,
        delta_norm := none, state := true, i := 0 } (Mat.ofMatrix !![1 / 2]) _ htry
      (sub_ok_of_shape (Mat.ofMatrix !![(1 : ℚ)]) (Mat.ofMatrix !![1 / 2]) rfl rfl)
    exact ⟨_, while_loop_single_pass _ _ _ _ _ _ _ _ _ _ rfl (by norm_num) (by norm_num) hdn,
      rfl⟩

/-- C2: for every data matrix with `P` columns and every `P × P` `theta_start`, whatever the
hyperparameters, `prox_gradient_mapping` makes zero passes through its loop body and returns
the `P × P` identity matrix. -/
theorem prox_gradient_mapping_returns_identity (norm2 : Mat K → K) (data theta_start : Mat K)
    (update_w update_change regularizer : K) (max_iter : Int) (tol : K)
    (hr : theta_start.n_rows = data.n_cols) (hc : theta_start.n_cols = data.n_cols) :
    (prox_gradient_run norm2 data theta_start update_w update_change regularizer
        max_iter tol).1 = 0
      ∧ prox_gradient_mapping norm2 data theta_start update_w update_change regularizer
          max_iter tol = .ok (eye data.n_cols data.n_cols) := by
  obtain ⟨d, hd⟩ := prox_gradient_run_of_shape norm2 data theta_start update_w update_change
    regularizer max_iter tol hr hc
  unfold prox_gradient_mapping
  rw [hd]
  exact ⟨rfl, rfl⟩

/-- An instance with 3 × 2 data and a 2 × 2 `theta_start`. -/
theorem prox_gradient_mapping_returns_identity_witness :
    (Mat.ofMatrix !![(3 : ℚ), 4; 5, 6]).n_rows = (Mat.ofMatrix !![(1 : ℚ), 2; 0, 1; 7, 7]).n_cols
      ∧ (Mat.ofMatrix !![(3 : ℚ), 4; 5, 6]).n_cols
          = (Mat.ofMatrix !![(1 : ℚ), 2; 0, 1; 7, 7]).n_cols
      ∧ (prox_gradient_run Mat.abs_sum (Mat.ofMatrix !![(1 : ℚ), 2; 0, 1; 7, 7])
            (Mat.ofMatrix !![(3 : ℚ), 4; 5, 6]) (1 / 10) (1 / 2) (1 / 4) 100 (1 / 1000)).1 = 0
      ∧ prox_gradient_mapping Mat.abs_sum (Mat.ofMatrix !![(1 : ℚ), 2; 0, 1; 7, 7])
            (Mat.ofMatrix !![(3 : ℚ), 4; 5, 6]) (1 / 10) (1 / 2) (1 / 4) 100 (1 / 1000)
          = .ok (eye 2 2) :=
  ⟨rfl, rfl, prox_gradient_mapping_returns_identity Mat.abs_sum
    (Mat.ofMatrix !![(1 : ℚ), 2; 0, 1; 7, 7]) (Mat.ofMatrix !![(3 : ℚ), 4; 5, 6])
    (1 / 10) (1 / 2) (1 / 4) 100 (1 / 1000) rfl rfl⟩

/-- C3: for every threshold `r ≥ 0` the branch of lines 96-104 is the soft-threshold operator
(`x - r` if `x ≥ r`, `x + r` if `x ≤ -r`, `0` otherwise), the two nested loops apply it to
every entry of a `P × P` proposal, the two conditions overlap only at `x = r = 0`, and with
`r = 2` the entries -5, -1, 0, 1, 5 become -3, 0, 0, 0, 3. -/
theorem threshold_is_soft_threshold (r : K) (hr : 0 ≤ r) :
    (∀ x : K, threshold_entry r x = soft_threshold r x)
      ∧ (∀ (P : Nat) (f : Fin P → Fin P → K),
          threshold_loop P r ⟨P, P, f⟩ = (⟨P, P, fun a b => soft_threshold r (f a b)⟩, none))
      ∧ (∀ x : K, x ≥ r → x ≤ -r → x = 0 ∧ r = 0)
      ∧ (threshold_entry (2 : K) (-5) = -3 ∧ threshold_entry (2 : K) (-1) = 0
          ∧ threshold_entry (2 : K) 0 = 0 ∧ threshold_entry (2 : K) 1 = 0
          ∧ threshold_entry (2 : K) 5 = 3) := by
  have hx : ∀ x : K, threshold_entry r x = soft_threshold r x := by
    intro x
    unfold threshold_entry soft_threshold
    by_cases h1 : x ≤ -r
    · by_cases h2 : x ≥ r
      · have hr0 : r = 0 := le_antisymm (by linarith) hr
        subst hr0
        simp [h1, h2]
      · simp [h1, h2]
    · simp [h1]
  refine ⟨hx, ?_, ?_, ?_⟩
  · intro P f
    rw [threshold_loop_square]
    congr 2
    funext a b
    exact hx _
  · intro x h1 h2
    have hr0 : r = 0 := le_antisymm (by linarith) hr
    exact ⟨le_antisymm (by linarith) (by linarith), hr0⟩
  · unfold threshold_entry
    norm_num

/-- An instance with threshold 2 over the rationals. -/
theorem threshold_is_soft_threshold_witness :
    (0 : ℚ) ≤ 2
      ∧ ((∀ x : ℚ, threshold_entry 2 x = soft_threshold 2 x)
        ∧ (∀ (P : Nat) (f : Fin P → Fin P → ℚ),
            threshold_loop P 2 ⟨P, P, f⟩ = (⟨P, P, fun a b => soft_threshold 2 (f a b)⟩, none))
        ∧ (∀ x : ℚ, x ≥ 2 → x ≤ -2 → x = 0 ∧ (2 : ℚ) = 0)
        ∧ (threshold_entry (2 : ℚ) (-5) = -3 ∧ threshold_entry (2 : ℚ) (-1) = 0
            ∧ threshold_entry (2 : ℚ) 0 = 0 ∧ threshold_entry (2 : ℚ) 1 = 0
            ∧ threshold_entry (2 : ℚ) 5 = 3)) :=
  ⟨by norm_num, threshold_is_soft_threshold 2 (by norm_num)⟩

/-- C4: for data with `N` rows and `P` columns whose empirical covariance is the `P × P`
matrix `S`, every `P × P` `theta_i` with non-zero determinant (of either sign) and every
regularizer, `prox_gradient_ll` returns the negative of base term plus penalty term, with
base term `N/2 * (-log|det theta_i| + trace(theta_i ⊙ S))` and penalty term
`regularizer * sqrt(log(P) / N) * norm(theta_i, 1) / 2`. -/
theorem prox_gradient_ll_formula (logf sqrtf : K → K) (N P : Nat) (x : Fin N → Fin P → K)
    (theta_i S : Matrix (Fin P) (Fin P) K) (regularizer : K)
    (_hdet : theta_i.det ≠ 0) (hS : cov ⟨N, P, x⟩ = Mat.ofMatrix S) :
    prox_gradient_ll logf sqrtf ⟨N, P, x⟩ (Mat.ofMatrix theta_i) regularizer
      = .ok (-((N : K) / 2 * (-logf |theta_i.det| + Matrix.trace (Matrix.hadamard theta_i S))
          + regularizer * sqrtf (logf (P : K) / (N : K)) * (Mat.ofMatrix theta_i).norm1 / 2)) := by
  rw [prox_gradient_ll_square logf sqrtf ⟨N, P, x⟩ P theta_i S regularizer hS]
  simp only [Matrix.trace, Matrix.diag, Matrix.hadamard_apply, Int.cast_natCast, Mat.ofMatrix]
  congr 1
  ring

/-- An instance with three observations of two variables and a `theta_i` of determinant -1. -/
theorem prox_gradient_ll_formula_witness :
    (!![0, 1; 1, 0] : Matrix (Fin 2) (Fin 2) ℝ).det ≠ 0
      ∧ cov (⟨3, 2, !![-3, 0; 0, 1; 3, -1]⟩ : Mat ℝ) = Mat.ofMatrix !![9, -3 / 2; -3 / 2, 1]
      ∧ prox_gradient_ll Real.log Real.sqrt ⟨3, 2, !![-3, 0; 0, 1; 3, -1]⟩
            (Mat.ofMatrix !![0, 1; 1, 0]) (1 / 2)
          = .ok (-(((3 : ℕ) : ℝ) / 2
                * (-Real.log |(!![0, 1; 1, 0] : Matrix (Fin 2) (Fin 2) ℝ).det|
                  + Matrix.trace (Matrix.hadamard (!![0, 1; 1, 0] : Matrix (Fin 2) (Fin 2) ℝ)
                      !![9, -3 / 2; -3 / 2, 1]))
              + 1 / 2 * Real.sqrt (Real.log ((2 : ℕ) : ℝ) / ((3 : ℕ) : ℝ))
                * (Mat.ofMatrix (!![0, 1; 1, 0] : Matrix (Fin 2) (Fin 2) ℝ)).norm1 / 2)) :=
  ⟨by simp [Matrix.det_fin_two], cov_sample_scaled,
    prox_gradient_ll_formula Real.log Real.sqrt 3 2 !![-3, 0; 0, 1; 3, -1] !![0, 1; 1, 0]
      !![9, -3 / 2; -3 / 2, 1] (1 / 2) (by simp [Matrix.det_fin_two]) cov_sample_scaled⟩

/-- C5 (as amended): for every `P × P` matrix `theta_i` with `P ≥ 1`, the value
`norm(theta_i, 1)` in the penalty term is the largest absolute column sum (the induced matrix
1-norm): it bounds the sum of the absolute values of every column, it is attained by one
column, and it is at most the sum of the absolute values of all `P*P` entries. -/
theorem norm1_is_max_abs_column_sum (P : Nat) (hP : 1 ≤ P) (theta_i : Matrix (Fin P) (Fin P) K) :
    (∀ j : Fin P, ∑ i : Fin P, |theta_i i j| ≤ (Mat.ofMatrix theta_i).norm1)
      ∧ (∃ j : Fin P, (Mat.ofMatrix theta_i).norm1 = ∑ i : Fin P, |theta_i i j|)
      ∧ (Mat.ofMatrix theta_i).norm1 ≤ ∑ i : Fin P, ∑ j : Fin P, |theta_i i j| := by
  have hcol : ∀ j : Fin P, (Mat.ofMatrix theta_i).abs_col_sum j = ∑ i : Fin P, |theta_i i j| :=
    fun _ => rfl
  have hall : (Mat.ofMatrix theta_i).abs_sum = ∑ i : Fin P, ∑ j : Fin P, |theta_i i j| := rfl
  by_cases h1 : P = 1
  · have hn : (Mat.ofMatrix theta_i).norm1 = (Mat.ofMatrix theta_i).abs_sum := by
      unfold Mat.norm1
      exact if_pos (Or.inl h1)
    have hv := norm1_vector_eq (Mat.ofMatrix theta_i) h1
    refine ⟨fun j => ?_, ⟨⟨0, hP⟩, ?_⟩, ?_⟩
    · rw [hn, hv j, hcol]
    · rw [hn, hv ⟨0, hP⟩, hcol]
    · rw [hn, hall]
  · have hn : (Mat.ofMatrix theta_i).norm1
        = (List.finRange P).foldl
            (fun acc j => max acc ((Mat.ofMatrix theta_i).abs_col_sum j)) 0 := by
      unfold Mat.norm1
      exact if_neg (by simp only [Mat.ofMatrix]; omega)
    refine ⟨fun j => ?_, ?_, ?_⟩
    · rw [hn, ← hcol]
      exact foldl_max_ge_mem _ _ _ j (List.mem_finRange j)
    · rcases foldl_max_attained (fun j => (Mat.ofMatrix theta_i).abs_col_sum j)
        (List.finRange P) 0 with h | ⟨x, _, h⟩
      · refine ⟨⟨0, hP⟩, ?_⟩
        rw [hn, h, ← hcol]
        refine le_antisymm (Finset.sum_nonneg (fun _ _ => abs_nonneg _)) ?_
        rw [← h]
        exact foldl_max_ge_mem _ _ _ _ (List.mem_finRange _)
      · exact ⟨x, by rw [hn, h, hcol]⟩
    · rw [hn, ← hall]
      rcases foldl_max_attained (fun j => (Mat.ofMatrix theta_i).abs_col_sum j)
        (List.finRange P) 0 with h | ⟨x, _, h⟩
      · rw [h]
        exact Finset.sum_nonneg (fun _ _ => Finset.sum_nonneg (fun _ _ => abs_nonneg _))
      · rw [h]
        exact abs_col_sum_le_abs_sum _ x

/-- An instance with the matrix `[[1, -2], [3, 4]]`. -/
theorem norm1_is_max_abs_column_sum_witness :
    1 ≤ 2
      ∧ ((∀ j : Fin 2, ∑ i : Fin 2, |(!![1, -2; 3, 4] : Matrix (Fin 2) (Fin 2) ℚ) i j|
            ≤ (Mat.ofMatrix (!![1, -2; 3, 4] : Matrix (Fin 2) (Fin 2) ℚ)).norm1)
        ∧ (∃ j : Fin 2, (Mat.ofMatrix (!![1, -2; 3, 4] : Matrix (Fin 2) (Fin 2) ℚ)).norm1
            = ∑ i : Fin 2, |(!![1, -2; 3, 4] : Matrix (Fin 2) (Fin 2) ℚ) i j|)
        ∧ (Mat.ofMatrix (!![1, -2; 3, 4] : Matrix (Fin 2) (Fin 2) ℚ)).norm1
            ≤ ∑ i : Fin 2, ∑ j : Fin 2, |(!![1, -2; 3, 4] : Matrix (Fin 2) (Fin 2) ℚ) i j|) :=
  ⟨by decide, norm1_is_max_abs_column_sum 2 (by decide) !![1, -2; 3, 4]⟩

/-- C5 (counterexample): for the 2 × 2 matrix of ones `norm(theta_i, 1)` is 2, the largest
absolute column sum, while the sum of the absolute values of all four entries is 4. -/
theorem norm1_ne_sum_of_all_entries :
    (Mat.ofMatrix (!![1, 1; 1, 1] : Matrix (Fin 2) (Fin 2) ℚ)).norm1 = 2
      ∧ ∑ i : Fin 2, ∑ j : Fin 2, |(!![1, 1; 1, 1] : Matrix (Fin 2) (Fin 2) ℚ) i j| = 4
      ∧ (Mat.ofMatrix (!![1, 1; 1, 1] : Matrix (Fin 2) (Fin 2) ℚ)).norm1
          ≠ ∑ i : Fin 2, ∑ j : Fin 2, |(!![1, 1; 1, 1] : Matrix (Fin 2) (Fin 2) ℚ) i j| := by
  have h1 : (Mat.ofMatrix (!![1, 1; 1, 1] : Matrix (Fin 2) (Fin 2) ℚ)).norm1 = 2 := by
    simp [Mat.norm1, Mat.ofMatrix, Mat.abs_col_sum, List.finRange, Fin.sum_univ_two]
  have h2 : ∑ i : Fin 2, ∑ j : Fin 2, |(!![1, 1; 1, 1] : Matrix (Fin 2) (Fin 2) ℚ) i j| = 4 := by
    simp [Fin.sum_univ_two]
    norm_num
  refine ⟨h1, h2, ?_⟩
  rw [h1, h2]
  norm_num

/-- C6 (as amended): `prox_gradient_ll` returns the negated objective, so the better-specified
matrix gets the higher value.  For every dataset with `N ≥ 2` whose empirical covariance `S`
is positive definite and diagonal but not the identity, and with `regularizer = 0`, the
value returned for `theta = inverse(S)` is strictly higher than the value returned for the
identity matrix; on these inputs `tr_TdS` coincides with `trace(theta^T * S)` for both
matrices. -/
theorem prox_gradient_ll_higher_at_inverse_of_diagonal (N P : Nat) (x : Fin N → Fin P → ℝ)
    (S : Matrix (Fin P) (Fin P) ℝ) (hN : 2 ≤ N) (hS : cov ⟨N, P, x⟩ = Mat.ofMatrix S)
    (hPD : S.PosDef) (hdiag : ∀ i j, i ≠ j → S i j = 0) (hne : S ≠ 1) :
    (∃ (theta : Mat ℝ) (a b : ℝ),
        (cov ⟨N, P, x⟩).inv = .ok theta
          ∧ prox_gradient_ll Real.log Real.sqrt ⟨N, P, x⟩ theta 0 = .ok a
          ∧ prox_gradient_ll Real.log Real.sqrt ⟨N, P, x⟩ (eye P P) 0 = .ok b
          ∧ b < a)
      ∧ Matrix.trace (Matrix.hadamard S⁻¹ S) = Matrix.trace (S⁻¹.transpose * S)
      ∧ Matrix.trace (Matrix.hadamard (1 : Matrix (Fin P) (Fin P) ℝ) S)
          = Matrix.trace ((1 : Matrix (Fin P) (Fin P) ℝ).transpose * S) := by
  have hdet : S.det ≠ 0 := hPD.det_pos.ne'
  have hlt := log_det_lt_trace_sub_card P S hPD hne
  have hprod : ∀ i, S⁻¹ i i * S i i = 1 := inv_diag_mul_diag P S hdet hdiag
  have htr : ∑ i : Fin P, S⁻¹ i i * S i i = (P : ℝ) := by
    simp [hprod]
  have hone : ∑ i : Fin P, (1 : Matrix (Fin P) (Fin P) ℝ) i i * S i i = S.trace := by
    simp [Matrix.trace]
  refine ⟨?_, ?_, ?_⟩
  · have hinv : (cov (⟨N, P, x⟩ : Mat ℝ)).inv = .ok (Mat.ofMatrix S⁻¹) := by
      rw [hS]
      exact inv_of_det_ne_zero P S hdet
    have ha := prox_gradient_ll_square Real.log Real.sqrt ⟨N, P, x⟩ P S⁻¹ S 0 hS
    have hb := prox_gradient_ll_square Real.log Real.sqrt ⟨N, P, x⟩ P
      (1 : Matrix (Fin P) (Fin P) ℝ) S 0 hS
    rw [← eye_eq_one] at hb
    refine ⟨Mat.ofMatrix S⁻¹, _, _, hinv, ha, hb, ?_⟩
    have hNpos : (0 : ℝ) < (N : ℝ) := by
      have : 0 < N := by omega
      exact_mod_cast this
    have hdi : (S⁻¹).det = (S.det)⁻¹ := by
      rw [Matrix.det_nonsing_inv, Ring.inverse_eq_inv']
    have hlog : Real.log |(S⁻¹).det| = -Real.log S.det := by
      rw [hdi, abs_of_pos (inv_pos.mpr hPD.det_pos), Real.log_inv]
    simp only [htr, hone, hlog, Matrix.det_one, abs_one, Real.log_one, Int.cast_natCast,
      zero_mul, add_zero, neg_zero, zero_add, neg_neg]
    nlinarith
  · have hsymm : S⁻¹.transpose = S⁻¹ := by
      have hS' : S.transpose = S := by
        have := hPD.1
        rwa [Matrix.IsHermitian, Matrix.conjTranspose_eq_transpose_of_trivial] at this
      rw [Matrix.transpose_nonsing_inv, hS']
    rw [hsymm, Matrix.nonsing_inv_mul S hdet.isUnit, Matrix.trace_one]
    simp only [Matrix.trace, Matrix.diag, Matrix.hadamard_apply]
    rw [htr]
    simp
  · rw [Matrix.transpose_one, one_mul]
    simp only [Matrix.trace, Matrix.diag, Matrix.hadamard_apply]
    simp

/-- An instance with three observations whose covariance is `[[1, 0], [0, 3]]`. -/
theorem prox_gradient_ll_higher_at_inverse_of_diagonal_witness :
    2 ≤ 3
      ∧ cov (⟨3, 2, !![1, 1; -1, 1; 0, -2]⟩ : Mat ℝ) = Mat.ofMatrix !![1, 0; 0, 3]
      ∧ (!![1, 0; 0, 3] : Matrix (Fin 2) (Fin 2) ℝ).PosDef
      ∧ (∀ i j, i ≠ j → (!![1, 0; 0, 3] : Matrix (Fin 2) (Fin 2) ℝ) i j = 0)
      ∧ (!![1, 0; 0, 3] : Matrix (Fin 2) (Fin 2) ℝ) ≠ 1
      ∧ ((∃ (theta : Mat ℝ) (a b : ℝ),
          (cov (⟨3, 2, !![1, 1; -1, 1; 0, -2]⟩ : Mat ℝ)).inv = .ok theta
            ∧ prox_gradient_ll Real.log Real.sqrt ⟨3, 2, !![1, 1; -1, 1; 0, -2]⟩ theta 0 = .ok a
            ∧ prox_gradient_ll Real.log Real.sqrt ⟨3, 2, !![1, 1; -1, 1; 0, -2]⟩ (eye 2 2) 0
                = .ok b
            ∧ b < a)
        ∧ Matrix.trace (Matrix.hadamard (!![1, 0; 0, 3] : Matrix (Fin 2) (Fin 2) ℝ)⁻¹
              !![1, 0; 0, 3])
            = Matrix.trace ((!![1, 0; 0, 3] : Matrix (Fin 2) (Fin 2) ℝ)⁻¹.transpose
              * !![1, 0; 0, 3])
        ∧ Matrix.trace (Matrix.hadamard (1 : Matrix (Fin 2) (Fin 2) ℝ) !![1, 0; 0, 3])
            = Matrix.trace ((1 : Matrix (Fin 2) (Fin 2) ℝ).transpose * !![1, 0; 0, 3])) :=
  have hPD : (!![1, 0; 0, 3] : Matrix (Fin 2) (Fin 2) ℝ).PosDef :=
    posDef_two_by_two 1 0 3 (by norm_num) (by norm_num)
  have hdiag : ∀ i j, i ≠ j → (!![1, 0; 0, 3] : Matrix (Fin 2) (Fin 2) ℝ) i j = 0 := by
    intro i j hij
    fin_cases i <;> fin_cases j <;> simp at hij ⊢
  have hne : (!![1, 0; 0, 3] : Matrix (Fin 2) (Fin 2) ℝ) ≠ 1 := by
    intro h
    have := congrFun (congrFun h 1) 1
    norm_num at this
  ⟨by decide, cov_sample_diagonal, hPD, hdiag, hne,
    prox_gradient_ll_higher_at_inverse_of_diagonal 3 2 !![1, 1; -1, 1; 0, -2] !![1, 0; 0, 3]
      (by decide) cov_sample_diagonal hPD hdiag hne⟩

/-- C6 (counterexample): the dataset with rows `(-3, 0)`, `(0, 1)`, `(3, -1)` has the positive
definite empirical covariance `S = [[9, -3/2], [-3/2, 1]]` with a non-zero off-diagonal
entry, and with `regularizer = 0` the value `prox_gradient_ll` returns for
`theta = inverse(S)` is not lower than the value it returns for the identity. -/
theorem prox_gradient_ll_not_lower_at_inverse :
    2 ≤ 3
      ∧ cov (⟨3, 2, !![-3, 0; 0, 1; 3, -1]⟩ : Mat ℝ) = Mat.ofMatrix !![9, -3 / 2; -3 / 2, 1]
      ∧ (!![9, -3 / 2; -3 / 2, 1] : Matrix (Fin 2) (Fin 2) ℝ).PosDef
      ∧ (!![9, -3 / 2; -3 / 2, 1] : Matrix (Fin 2) (Fin 2) ℝ) 0 1 ≠ 0
      ∧ (cov (⟨3, 2, !![-3, 0; 0, 1; 3, -1]⟩ : Mat ℝ)).inv
          = .ok (Mat.ofMatrix !![4 / 27, 2 / 9; 2 / 9, 4 / 3])
      ∧ ∃ a b : ℝ,
          prox_gradient_ll Real.log Real.sqrt ⟨3, 2, !![-3, 0; 0, 1; 3, -1]⟩
              (Mat.ofMatrix !![4 / 27, 2 / 9; 2 / 9, 4 / 3]) 0 = .ok a
            ∧ prox_gradient_ll Real.log Real.sqrt ⟨3, 2, !![-3, 0; 0, 1; 3, -1]⟩ (eye 2 2) 0
                = .ok b
            ∧ ¬ a < b := by
  have hPD : (!![9, -3 / 2; -3 / 2, 1] : Matrix (Fin 2) (Fin 2) ℝ).PosDef :=
    posDef_two_by_two 9 (-3 / 2) 1 (by norm_num) (by norm_num)
  have hinvm : (!![9, -3 / 2; -3 / 2, 1] : Matrix (Fin 2) (Fin 2) ℝ)⁻¹
      = !![4 / 27, 2 / 9; 2 / 9, 4 / 3] := by
    apply Matrix.inv_eq_right_inv
    ext i j
    fin_cases i <;> fin_cases j <;>
      norm_num [Matrix.mul_apply, Fin.sum_univ_two, Matrix.one_apply]
  have hinv : (cov (⟨3, 2, !![-3, 0; 0, 1; 3, -1]⟩ : Mat ℝ)).inv
      = .ok (Mat.ofMatrix !![4 / 27, 2 / 9; 2 / 9, 4 / 3]) := by
    rw [cov_sample_scaled, inv_of_det_ne_zero 2 _ hPD.det_pos.ne', hinvm]
  have ha := prox_gradient_ll_square Real.log Real.sqrt
    (⟨3, 2, !![-3, 0; 0, 1; 3, -1]⟩ : Mat ℝ) 2 !![4 / 27, 2 / 9; 2 / 9, 4 / 3]
    !![9, -3 / 2; -3 / 2, 1] 0 cov_sample_scaled
  have hb := prox_gradient_ll_square Real.log Real.sqrt
    (⟨3, 2, !![-3, 0; 0, 1; 3, -1]⟩ : Mat ℝ) 2 (1 : Matrix (Fin 2) (Fin 2) ℝ)
    !![9, -3 / 2; -3 / 2, 1] 0 cov_sample_scaled
  rw [← eye_eq_one] at hb
  refine ⟨by decide, cov_sample_scaled, hPD, by norm_num, hinv, _, _, ha, hb, ?_⟩
  have hlog := Real.one_sub_inv_le_log_of_pos (show (0 : ℝ) < 4 / 27 by norm_num)
  have hdet : (!![4 / 27, 2 / 9; 2 / 9, 4 / 3] : Matrix (Fin 2) (Fin 2) ℝ).det = 4 / 27 := by
    rw [Matrix.det_fin_two]
    norm_num
  rw [hdet]
  simp only [Matrix.det_one, abs_one, Real.log_one, Fin.sum_univ_two, Matrix.one_apply_eq,
    Matrix.of_apply, Matrix.cons_val_zero, Matrix.cons_val_one, Matrix.head_cons,
    Matrix.cons_val', Matrix.empty_val', Matrix.cons_val_fin_one]
  norm_num
  norm_num at hlog
  linarith

/-- C7: `prox_gradient_mapping` always terminates.  The loop is a total function of its
inputs; a call makes at most `max_iter` passes through the loop body (none when
`max_iter ≤ 0`); from any loop state, also one with `state = true`, at most `max_iter - i`
further passes are made; and every pass that completes, through the `catch` branch as well
as through the successful branch, increases `i` by exactly one (the only other way out of
the body is the size check of the subtraction at line 113). -/
theorem prox_gradient_mapping_terminates (norm2 : Mat K → K) (data theta_start : Mat K)
    (update_w update_change regularizer : K) (max_iter : Int) (tol : K) :
    (prox_gradient_run norm2 data theta_start update_w update_change regularizer
        max_iter tol).1 ≤ max_iter.toNat
      ∧ (∀ s : LoopState K,
          (while_loop norm2 data.n_cols (cov data) theta_start update_change regularizer tol
            max_iter s).1 ≤ (max_iter - s.i).toNat)
      ∧ (∀ s : LoopState K,
          loop_body norm2 data.n_cols (cov data) theta_start update_change regularizer tol s
              = .error .incompatible_dimensions
            ∨ ∃ s', loop_body norm2 data.n_cols (cov data) theta_start update_change
                regularizer tol s = .ok s' ∧ s'.i = s.i + 1) := by
  refine ⟨?_, ?_, ?_⟩
  · unfold prox_gradient_run
    simp only
    split
    · exact Nat.zero_le _
    · refine le_trans (while_loop_passes_le norm2 data.n_cols (cov data) theta_start
        update_change regularizer tol max_iter _ _ rfl) ?_
      simp
  · intro s
    exact while_loop_passes_le norm2 data.n_cols (cov data) theta_start update_change
      regularizer tol max_iter _ s rfl
  · intro s
    exact loop_body_counter norm2 data.n_cols (cov data) theta_start update_change
      regularizer tol s

/-- C8 (code defect): a pass of the loop body whose inversion fails multiplies `update_w` by
`update_change` and raises no error, but the working estimate handed to the next iteration
is the stale proposal `theta_p`, not `theta_start`: line 114 overwrites the reset of line
111.  Here `theta_start = [[2]]` and `theta_k = theta_p = [[0]]` is singular (the state a
pass from `theta_start` leaves for `S = [[2]]`, `update_w = 1`, `regularizer = 10`). -/
theorem loop_body_failed_step_restarts_from_proposal :
    ∀ norm2 : Mat ℚ → ℚ, ∃ s' : LoopState ℚ,
      (Mat.ofMatrix !![(0 : ℚ)]).inv = .error .singular
        ∧ loop_body norm2 1 (Mat.ofMatrix !![2]) (Mat.ofMatrix !![2]) (1 / 2) 10 0
            { theta_p := Mat.ofMatrix !![0], theta_k := Mat.ofMatrix !![0], update_w := 1,
              delta_norm := none, state := true, i := 1 } = .ok s'
        ∧ s'.update_w = 1 * (1 / 2)
        ∧ s'.theta_k = Mat.ofMatrix !![0]
        ∧ s'.theta_k ≠ Mat.ofMatrix !![2] := by
  intro norm2
  have hinv : (Mat.ofMatrix !![(0 : ℚ)]).inv = .error .singular := by
    rw [Mat.ofMatrix, inv_square, if_pos (by simp)]
  have htry : try_block 1 (Mat.ofMatrix !![(2 : ℚ)]) 10 (Mat.ofMatrix !![0])
      (Mat.ofMatrix !![0]) 1 = (Mat.ofMatrix !![0], some .singular) := by
    rw [Mat.ofMatrix, Mat.ofMatrix, try_block_singular 1 _ _ _ _ _ (by simp)]
  obtain ⟨dn, hdn⟩ := loop_body_of_catch norm2 1 (Mat.ofMatrix !![(2 : ℚ)])
    (Mat.ofMatrix !![2]) (1 / 2) 10 0
    { theta_p := Mat.ofMatrix !![0], theta_k := Mat.ofMatrix !![0], update_w := 1,
      delta_norm := none, state := true, i := 1 } (Mat.ofMatrix !![0]) _ .singular htry
    (sub_ok_of_shape (Mat.ofMatrix !![(2 : ℚ)]) (Mat.ofMatrix !![0]) rfl rfl)
  refine ⟨_, hinv, hdn, rfl, rfl, ?_⟩
  intro h
  simp only [Mat.ofMatrix, Mat.mk.injEq, heq_eq_eq, true_and] at h
  have := congrFun (congrFun h 0) 0
  norm_num at this

/-- C9 (code defect): for the singular `theta_start = [[0]]`, `update_change = 1/2` and
`max_iter = 5` the call makes no pass through the loop, so the shrink path is never taken:
the step size is still the initial `update_w = 1` when the function returns, which is
`update_w * update_change^k` for no `k ≥ 1`.  The returned matrix is the identity. -/
theorem prox_gradient_mapping_singular_start_keeps_step_size :
    ∀ norm2 : Mat ℚ → ℚ, ∃ s : LoopState ℚ,
      (Mat.ofMatrix !![(0 : ℚ)]).inv = .error .singular
        ∧ prox_gradient_run norm2 (Mat.ofMatrix !![0; 2]) (Mat.ofMatrix !![0]) 1 (1 / 2) 0 5 0
          = (0, .ok s)
        ∧ s.update_w = 1
        ∧ (∀ k : Nat, 1 ≤ k → s.update_w ≠ 1 * (1 / 2) ^ k)
        ∧ prox_gradient_mapping norm2 (Mat.ofMatrix !![0; 2]) (Mat.ofMatrix !![0]) 1 (1 / 2) 0 5 0
            = .ok (eye 1 1) := by
  intro norm2
  obtain ⟨d, hd⟩ := prox_gradient_run_of_shape norm2 (Mat.ofMatrix !![(0 : ℚ); 2])
    (Mat.ofMatrix !![0]) 1 (1 / 2) 0 5 0 rfl rfl
  have hinv : (Mat.ofMatrix !![(0 : ℚ)]).inv = .error .singular := by
    rw [Mat.ofMatrix, inv_square, if_pos (by simp)]
  refine ⟨_, hinv, hd, rfl, ?_, ?_⟩
  · intro k hk
    have h2 : (1 / 2 : ℚ) ^ k < 1 := pow_lt_one₀ (by norm_num) (by norm_num) (by omega)
    simp only
    intro h
    rw [one_mul] at h
    rw [← h] at h2
    exact lt_irrefl _ h2
  · unfold prox_gradient_mapping
    rw [hd]
    rfl

/-- C10: whenever `theta_start` is not `P × P`, with `P` the number of columns of `data`,
`prox_gradient_mapping` raises the incompatible-dimensions error of the subtraction
`theta_k - theta_p` at line 85, before any pass of the loop, and returns no matrix. -/
theorem prox_gradient_mapping_dimension_mismatch (norm2 : Mat K → K) (data theta_start : Mat K)
    (update_w update_change regularizer : K) (max_iter : Int) (tol : K)
    (h : ¬ (theta_start.n_rows = data.n_cols ∧ theta_start.n_cols = data.n_cols)) :
    prox_gradient_mapping norm2 data theta_start update_w update_change regularizer
        max_iter tol = .error .incompatible_dimensions
      ∧ (prox_gradient_run norm2 data theta_start update_w update_change regularizer
          max_iter tol).1 = 0 := by
  unfold prox_gradient_mapping
  rw [prox_gradient_run_of_mismatch norm2 data theta_start update_w update_change regularizer
    max_iter tol h]
  exact ⟨rfl, rfl⟩

/-- An instance with 3 × 2 data and a 2 × 3 `theta_start`. -/
theorem prox_gradient_mapping_dimension_mismatch_witness :
    ¬ ((Mat.ofMatrix !![(1 : ℚ), 0, 0; 0, 1, 0]).n_rows
          = (Mat.ofMatrix !![(1 : ℚ), 2; 0, 1; 7, 7]).n_cols
        ∧ (Mat.ofMatrix !![(1 : ℚ), 0, 0; 0, 1, 0]).n_cols
          = (Mat.ofMatrix !![(1 : ℚ), 2; 0, 1; 7, 7]).n_cols)
      ∧ (prox_gradient_mapping Mat.abs_sum (Mat.ofMatrix !![(1 : ℚ), 2; 0, 1; 7, 7])
            (Mat.ofMatrix !![(1 : ℚ), 0, 0; 0, 1, 0]) (1 / 10) (1 / 2) (1 / 4) 100 (1 / 1000)
          = .error .incompatible_dimensions
        ∧ (prox_gradient_run Mat.abs_sum (Mat.ofMatrix !![(1 : ℚ), 2; 0, 1; 7, 7])
            (Mat.ofMatrix !![(1 : ℚ), 0, 0; 0, 1, 0]) (1 / 10) (1 / 2) (1 / 4) 100
            (1 / 1000)).1 = 0) :=
  ⟨by simp [Mat.ofMatrix], prox_gradient_mapping_dimension_mismatch Mat.abs_sum
    (Mat.ofMatrix !![(1 : ℚ), 2; 0, 1; 7, 7]) (Mat.ofMatrix !![(1 : ℚ), 0, 0; 0, 1, 0])
    (1 / 10) (1 / 2) (1 / 4) 100 (1 / 1000) (by simp [Mat.ofMatrix])⟩

/-- C11 (code defect): for `theta_i = [[2, 1], [1, 2]]` and the symmetric covariance
`S = [[1, -1/2], [-1/2, 1]]` of the observations `(1, 0)`, `(-1, 1)`, `(0, -1)`, the value
`tr_TdS` computed by `prox_gradient_ll`, the trace of the element-wise product, is 4, while
`trace(theta_i^T * S)` is 3; the returned value is built from 4. -/
theorem prox_gradient_ll_trace_of_schur_ne_trace_of_product :
    cov (⟨3, 2, !![1, 0; -1, 1; 0, -1]⟩ : Mat ℚ) = Mat.ofMatrix !![1, -1 / 2; -1 / 2, 1]
      ∧ (!![1, -1 / 2; -1 / 2, 1] : Matrix (Fin 2) (Fin 2) ℚ).IsSymm
      ∧ (Mat.ofMatrix (!![2, 1; 1, 2] : Matrix (Fin 2) (Fin 2) ℚ)).schur
            (cov (⟨3, 2, !![1, 0; -1, 1; 0, -1]⟩ : Mat ℚ))
          = .ok (Mat.ofMatrix (Matrix.hadamard (!![2, 1; 1, 2] : Matrix (Fin 2) (Fin 2) ℚ)
              !![1, -1 / 2; -1 / 2, 1]))
      ∧ (Mat.ofMatrix (Matrix.hadamard (!![2, 1; 1, 2] : Matrix (Fin 2) (Fin 2) ℚ)
            !![1, -1 / 2; -1 / 2, 1])).trace = 4
      ∧ Matrix.trace ((!![2, 1; 1, 2] : Matrix (Fin 2) (Fin 2) ℚ).transpose
            * !![1, -1 / 2; -1 / 2, 1]) = 3
      ∧ (∀ logf sqrtf : ℚ → ℚ,
          prox_gradient_ll logf sqrtf ⟨3, 2, !![1, 0; -1, 1; 0, -1]⟩
              (Mat.ofMatrix !![2, 1; 1, 2]) 0
            = .ok (-(3 / 2 * (-logf 3 + 4)))) := by
  refine ⟨cov_sample_unit, ?_, ?_, ?_, ?_, ?_⟩
  · ext i j
    fin_cases i <;> fin_cases j <;> simp [Matrix.transpose_apply]
  · rw [cov_sample_unit]
    simp only [Mat.ofMatrix, Mat.schur, and_self, dite_true, Fin.cast_eq_self]
    rfl
  · rw [Mat.ofMatrix, trace_square]
    simp [Fin.sum_univ_two, Matrix.hadamard_apply]
    norm_num
  · have ht : (!![2, 1; 1, 2] : Matrix (Fin 2) (Fin 2) ℚ).transpose = !![2, 1; 1, 2] := by
      ext i j
      fin_cases i <;> fin_cases j <;> rfl
    rw [ht]
    simp [Matrix.trace, Matrix.mul_apply, Fin.sum_univ_two]
    norm_num
  · intro logf sqrtf
    rw [prox_gradient_ll_square logf sqrtf _ 2 !![2, 1; 1, 2] !![1, -1 / 2; -1 / 2, 1] 0
      cov_sample_unit]
    simp [Fin.sum_univ_two, Matrix.det_fin_two]
    norm_num

/-- C12: with `regularizer = 0` the proximal step is the identity: the branch of lines 96-104
returns every entry unchanged, whatever its sign, and the two nested loops leave every
`P × P` matrix produced by the gradient step as it is. -/
theorem threshold_zero_is_identity :
    (∀ x : K, threshold_entry 0 x = x)
      ∧ (∀ (P : Nat) (g : Fin P → Fin P → K),
          threshold_loop P 0 (⟨P, P, g⟩ : Mat K) = (⟨P, P, g⟩, none)) := by
  have hx : ∀ x : K, threshold_entry 0 x = x := by
    intro x
    unfold threshold_entry
    by_cases h1 : x ≤ 0
    · simp [h1]
    · have h2 : x ≥ 0 := le_of_lt (not_le.mp h1)
      simp [h1, h2]
  refine ⟨hx, ?_⟩
  intro P g
  rw [threshold_loop_square]
  congr 2
  funext a b
  exact hx _

/-- C13: symmetry is kept by the update step.  For a symmetric invertible `theta_k` and a
symmetric `S`, the gradient step `theta_k - update_w * (S - inverse(theta_k))` followed by the
element-wise threshold raises nothing and gives a symmetric proposal, for every `update_w`
and `regularizer`; the loop started from the symmetric `theta_start = theta_k` (and the
identity as first proposal) ends with a symmetric `theta_p`, whatever the number of passes;
and the covariance of the columns of any data is symmetric. -/
theorem update_step_keeps_symmetry (P : Nat) (theta_k S : Matrix (Fin P) (Fin P) K)
    (hk : theta_k.IsSymm) (hdet : theta_k.det ≠ 0) (hS : S.IsSymm) (theta_p : Mat K)
    (update_w regularizer : K) :
    (∃ g : Matrix (Fin P) (Fin P) K,
        try_block P (Mat.ofMatrix S) regularizer (Mat.ofMatrix theta_k) theta_p update_w
            = (Mat.ofMatrix g, none)
          ∧ g.IsSymm
          ∧ ∀ a b, g a b = threshold_entry regularizer
              (theta_k a b - update_w * (S a b - theta_k⁻¹ a b)))
      ∧ (∀ (norm2 : Mat K → K) (update_change tol : K) (max_iter : Int) (st : Bool)
          (dn : Option K),
          ∃ s', (while_loop norm2 P (Mat.ofMatrix S) (Mat.ofMatrix theta_k) update_change
              regularizer tol max_iter
              { theta_p := eye P P, theta_k := Mat.ofMatrix theta_k, update_w := update_w,
                delta_norm := dn, state := st, i := 0 }).2 = .ok s'
            ∧ s'.theta_p.IsSymm P)
      ∧ (∀ (N : Nat) (x : Fin N → Fin P → K), (cov_cols N P x).IsSymm P) := by
  refine ⟨?_, ?_, fun N x => cov_cols_symm N P x⟩
  · obtain ⟨g, hg, hsymm, hval⟩ := try_block_symm P theta_k S hk hdet hS theta_p update_w
      regularizer
    refine ⟨g, hg, hsymm, ?_⟩
    intro a b
    rw [hval a b, Matrix.inv_def, Ring.inverse_eq_inv']
    rfl
  · intro norm2 update_change tol max_iter st dn
    obtain ⟨s', hs', hp, _⟩ := while_loop_symm norm2 P S hS (Mat.ofMatrix theta_k)
      ⟨theta_k, rfl, hk⟩ update_change regularizer tol max_iter _
      { theta_p := eye P P, theta_k := Mat.ofMatrix theta_k, update_w := update_w,
        delta_norm := dn, state := st, i := 0 } rfl (eye_symm P) ⟨theta_k, rfl, hk⟩
    exact ⟨s', hs', hp⟩

/-- An instance with `theta_k = [[2, 1], [1, 2]]` and `S = [[1, -1/2], [-1/2, 1]]`. -/
theorem update_step_keeps_symmetry_witness :
    (!![2, 1; 1, 2] : Matrix (Fin 2) (Fin 2) ℚ).IsSymm
      ∧ (!![2, 1; 1, 2] : Matrix (Fin 2) (Fin 2) ℚ).det ≠ 0
      ∧ (!![1, -1 / 2; -1 / 2, 1] : Matrix (Fin 2) (Fin 2) ℚ).IsSymm
      ∧ ((∃ g : Matrix (Fin 2) (Fin 2) ℚ,
          try_block 2 (Mat.ofMatrix (!![1, -1 / 2; -1 / 2, 1] : Matrix (Fin 2) (Fin 2) ℚ))
              (1 / 4) (Mat.ofMatrix (!![2, 1; 1, 2] : Matrix (Fin 2) (Fin 2) ℚ)) (eye 2 2)
              (1 / 10)
              = (Mat.ofMatrix g, none)
            ∧ g.IsSymm
            ∧ ∀ a b, g a b = threshold_entry (1 / 4)
                ((!![2, 1; 1, 2] : Matrix (Fin 2) (Fin 2) ℚ) a b
                  - 1 / 10 * ((!![1, -1 / 2; -1 / 2, 1] : Matrix (Fin 2) (Fin 2) ℚ) a b
                    - (!![2, 1; 1, 2] : Matrix (Fin 2) (Fin 2) ℚ)⁻¹ a b)))
        ∧ (∀ (norm2 : Mat ℚ → ℚ) (update_change tol : ℚ) (max_iter : Int) (st : Bool)
            (dn : Option ℚ),
            ∃ s', (while_loop norm2 2
                (Mat.ofMatrix (!![1, -1 / 2; -1 / 2, 1] : Matrix (Fin 2) (Fin 2) ℚ))
                (Mat.ofMatrix (!![2, 1; 1, 2] : Matrix (Fin 2) (Fin 2) ℚ)) update_change
                (1 / 4) tol max_iter
                { theta_p := eye 2 2,
                  theta_k := Mat.ofMatrix (!![2, 1; 1, 2] : Matrix (Fin 2) (Fin 2) ℚ),
                  update_w := 1 / 10, delta_norm := dn, state := st, i := 0 }).2 = .ok s'
              ∧ s'.theta_p.IsSymm 2)
        ∧ (∀ (N : Nat) (x : Fin N → Fin 2 → ℚ), (cov_cols N 2 x).IsSymm 2)) :=
  have h1 : (!![2, 1; 1, 2] : Matrix (Fin 2) (Fin 2) ℚ).IsSymm := by
    ext i j
    fin_cases i <;> fin_cases j <;> rfl
  have h2 : (!![2, 1; 1, 2] : Matrix (Fin 2) (Fin 2) ℚ).det ≠ 0 := by
    rw [Matrix.det_fin_two]
    norm_num
  have h3 : (!![1, -1 / 2; -1 / 2, 1] : Matrix (Fin 2) (Fin 2) ℚ).IsSymm := by
    ext i j
    fin_cases i <;> fin_cases j <;> rfl
  ⟨h1, h2, h3, update_step_keeps_symmetry 2 !![2, 1; 1, 2] !![1, -1 / 2; -1 / 2, 1] h1 h2 h3
    (eye 2 2) (1 / 10) (1 / 4)⟩

/-- C14: for every threshold `r ≥ 0` the per-entry map `T` of lines 96-104 is non-expansive,
`|T x - T y| ≤ |x - y|`, shrinking, `|T x| ≤ |x|`, and never gives `T x` the sign opposite
to `x`. -/
theorem threshold_entry_nonexpansive (r : K) (hr : 0 ≤ r) :
    (∀ x y : K, |threshold_entry r x - threshold_entry r y| ≤ |x - y|)
      ∧ (∀ x : K, |threshold_entry r x| ≤ |x|)
      ∧ (∀ x : K, 0 ≤ x * threshold_entry r x) := by
  refine ⟨?_, ?_, ?_⟩
  · intro x y
    unfold threshold_entry
    split_ifs <;> rw [abs_le] <;> constructor <;>
      first
        | (rcases le_total 0 (x - y) with h | h
           · rw [abs_of_nonneg h]; linarith
           · rw [abs_of_nonpos h]; linarith)
  · intro x
    unfold threshold_entry
    split_ifs <;> rw [abs_le] <;> constructor <;>
      first
        | (rcases le_total 0 x with h | h
           · rw [abs_of_nonneg h]; linarith
           · rw [abs_of_nonpos h]; linarith)
  · intro x
    unfold threshold_entry
    split_ifs with h1 h2
    · nlinarith
    · nlinarith
    · simp

/-- An instance with threshold 2 over the rationals. -/
theorem threshold_entry_nonexpansive_witness :
    (0 : ℚ) ≤ 2
      ∧ ((∀ x y : ℚ, |threshold_entry 2 x - threshold_entry 2 y| ≤ |x - y|)
        ∧ (∀ x : ℚ, |threshold_entry 2 x| ≤ |x|)
        ∧ (∀ x : ℚ, 0 ≤ x * threshold_entry 2 x)) :=
  ⟨by norm_num, threshold_entry_nonexpansive 2 (by norm_num)⟩

/-- C15: with `regularizer = 0`, for data whose empirical covariance `S` is invertible and
every `update_w`, a pass of the loop body started at `theta_k = inverse(S)` goes through the
successful branch and produces `theta_p = theta_k`; the relative change computed for that
pass is `delta_norm = 0`, which is below every `tol > 0`, so the pass sets `state` to false.
The matrix norm `norm2` is any function that vanishes exactly on zero matrices. -/
theorem update_step_fixed_point (norm2 : Mat K → K)
    (hzero : ∀ A : Mat K, (∀ i j, A.elem i j = 0) → norm2 A = 0)
    (hdef : ∀ A : Mat K, norm2 A = 0 → ∀ i j, A.elem i j = 0)
    (N P : Nat) (hP : 1 ≤ P) (x : Fin N → Fin P → K) (S : Matrix (Fin P) (Fin P) K)
    (hS : cov (⟨N, P, x⟩ : Mat K) = Mat.ofMatrix S) (hdet : S.det ≠ 0)
    (theta_start theta_p : Mat K) (update_w update_change tol : K) (htol : 0 < tol)
    (dn : Option K) (st : Bool) (i : Int) :
    try_block P (cov (⟨N, P, x⟩ : Mat K)) 0 (Mat.ofMatrix S⁻¹) theta_p update_w
        = (Mat.ofMatrix S⁻¹, none)
      ∧ ∃ s', loop_body norm2 P (cov (⟨N, P, x⟩ : Mat K)) theta_start update_change 0 tol
            { theta_p := theta_p, theta_k := Mat.ofMatrix S⁻¹, update_w := update_w,
              delta_norm := dn, state := st, i := i } = .ok s'
          ∧ s'.theta_p = Mat.ofMatrix S⁻¹
          ∧ s'.theta_k = Mat.ofMatrix S⁻¹
          ∧ s'.update_w = update_w
          ∧ s'.delta_norm = some 0
          ∧ lt_tol s'.delta_norm tol = true
          ∧ s'.state = false := by
  have htry : try_block P (cov (⟨N, P, x⟩ : Mat K)) 0 (Mat.ofMatrix S⁻¹) theta_p update_w
      = (Mat.ofMatrix S⁻¹, none) := by
    rw [hS]
    exact try_block_at_inverse P S hdet theta_p update_w
  have hsub := sub_ok_of_shape (Mat.ofMatrix S⁻¹) (Mat.ofMatrix S⁻¹) rfl rfl
  have hnum : norm2 ⟨(Mat.ofMatrix S⁻¹).n_rows, (Mat.ofMatrix S⁻¹).n_cols,
      fun i j => (Mat.ofMatrix S⁻¹).elem i j
        - (Mat.ofMatrix S⁻¹).elem (Fin.cast rfl i) (Fin.cast rfl j)⟩ = 0 := by
    apply hzero
    intro i j
    simp
  have hden : norm2 (Mat.ofMatrix S⁻¹) ≠ 0 := by
    intro h0
    have hall := hdef _ h0
    have hz : S⁻¹ = 0 := by
      ext a b
      exact hall a b
    have hdet' : (S⁻¹).det ≠ 0 := by
      rw [Matrix.det_nonsing_inv, Ring.inverse_eq_inv']
      exact inv_ne_zero hdet
    haveI : Nonempty (Fin P) := ⟨⟨0, hP⟩⟩
    rw [hz, Matrix.det_zero ‹_›] at hdet'
    exact hdet' rfl
  refine ⟨htry, ?_⟩
  unfold loop_body delta_norm_of
  simp only [htry, hsub, hnum, if_neg hden, zero_div]
  refine ⟨_, rfl, rfl, rfl, rfl, rfl, ?_, ?_⟩
  · simp [lt_tol, htol]
  · simp [lt_tol, htol]

/-- An instance with the observations `(1, 0)`, `(-1, 1)`, `(0, -1)` and the entry-wise
1-norm as matrix norm. -/
theorem update_step_fixed_point_witness :
    (∀ A : Mat ℚ, (∀ i j, A.elem i j = 0) → A.abs_sum = 0)
      ∧ (∀ A : Mat ℚ, A.abs_sum = 0 → ∀ i j, A.elem i j = 0)
      ∧ 1 ≤ 2
      ∧ cov (⟨3, 2, !![1, 0; -1, 1; 0, -1]⟩ : Mat ℚ) = Mat.ofMatrix !![1, -1 / 2; -1 / 2, 1]
      ∧ (!![1, -1 / 2; -1 / 2, 1] : Matrix (Fin 2) (Fin 2) ℚ).det ≠ 0
      ∧ (0 : ℚ) < 1 / 1000
      ∧ (try_block 2 (cov (⟨3, 2, !![1, 0; -1, 1; 0, -1]⟩ : Mat ℚ)) 0
            (Mat.ofMatrix (!![1, -1 / 2; -1 / 2, 1] : Matrix (Fin 2) (Fin 2) ℚ)⁻¹) (eye 2 2)
            (1 / 10)
          = (Mat.ofMatrix (!![1, -1 / 2; -1 / 2, 1] : Matrix (Fin 2) (Fin 2) ℚ)⁻¹, none)
        ∧ ∃ s', loop_body Mat.abs_sum 2 (cov (⟨3, 2, !![1, 0; -1, 1; 0, -1]⟩ : Mat ℚ))
              (eye 2 2) (1 / 2) 0 (1 / 1000)
              { theta_p := eye 2 2,
                theta_k := Mat.ofMatrix (!![1, -1 / 2; -1 / 2, 1] : Matrix (Fin 2) (Fin 2) ℚ)⁻¹,
                update_w := 1 / 10, delta_norm := none, state := true, i := 0 } = .ok s'
            ∧ s'.theta_p = Mat.ofMatrix (!![1, -1 / 2; -1 / 2, 1] : Matrix (Fin 2) (Fin 2) ℚ)⁻¹
            ∧ s'.theta_k = Mat.ofMatrix (!![1, -1 / 2; -1 / 2, 1] : Matrix (Fin 2) (Fin 2) ℚ)⁻¹
            ∧ s'.update_w = 1 / 10
            ∧ s'.delta_norm = some 0
            ∧ lt_tol s'.delta_norm (1 / 1000) = true
            ∧ s'.state = false) :=
  have hdet : (!![1, -1 / 2; -1 / 2, 1] : Matrix (Fin 2) (Fin 2) ℚ).det ≠ 0 := by
    rw [Matrix.det_fin_two]
    norm_num
  ⟨abs_sum_of_zero, zero_of_abs_sum, by decide, cov_sample_unit, hdet, by norm_num,
    update_step_fixed_point Mat.abs_sum abs_sum_of_zero zero_of_abs_sum 3 2 (by decide)
      !![1, 0; -1, 1; 0, -1] !![1, -1 / 2; -1 / 2, 1] cov_sample_unit hdet (eye 2 2) (eye 2 2)
      (1 / 10) (1 / 2) (1 / 1000) (by norm_num) none true 0⟩

/-- C16: for data with one column and `N ≥ 1` rows and every 1 × 1 `theta_i` with non-zero
entry, `prox_gradient_ll` returns a value, and the value is the same for every two
regularizers `r1` and `r2`: the penalty term vanishes because `log(P) = log(1) = 0`. -/
theorem prox_gradient_ll_univariate_ignores_regularizer (N : Nat) (hN : 1 ≤ N)
    (x : Fin N → Fin 1 → ℝ) (theta_i : Matrix (Fin 1) (Fin 1) ℝ) (_hne : theta_i 0 0 ≠ 0)
    (r1 r2 : ℝ) :
    prox_gradient_ll Real.log Real.sqrt ⟨N, 1, x⟩ (Mat.ofMatrix theta_i) r1
        = prox_gradient_ll Real.log Real.sqrt ⟨N, 1, x⟩ (Mat.ofMatrix theta_i) r2
      ∧ ∃ v : ℝ, prox_gradient_ll Real.log Real.sqrt ⟨N, 1, x⟩ (Mat.ofMatrix theta_i) r1
          = .ok v := by
  obtain ⟨S, hS⟩ := cov_one_column N hN x
  have h1 := prox_gradient_ll_square Real.log Real.sqrt ⟨N, 1, x⟩ 1 theta_i S r1 hS
  have h2 := prox_gradient_ll_square Real.log Real.sqrt ⟨N, 1, x⟩ 1 theta_i S r2 hS
  refine ⟨?_, _, h1⟩
  rw [h1, h2]
  simp

/-- An instance with two observations of one variable and `theta_i = [[-3]]`. -/
theorem prox_gradient_ll_univariate_ignores_regularizer_witness :
    1 ≤ 2
      ∧ (!![-3] : Matrix (Fin 1) (Fin 1) ℝ) 0 0 ≠ 0
      ∧ (prox_gradient_ll Real.log Real.sqrt ⟨2, 1, !![0; 2]⟩
            (Mat.ofMatrix (!![-3] : Matrix (Fin 1) (Fin 1) ℝ)) 0
          = prox_gradient_ll Real.log Real.sqrt ⟨2, 1, !![0; 2]⟩
            (Mat.ofMatrix (!![-3] : Matrix (Fin 1) (Fin 1) ℝ)) 7
        ∧ ∃ v : ℝ, prox_gradient_ll Real.log Real.sqrt ⟨2, 1, !![0; 2]⟩
            (Mat.ofMatrix (!![-3] : Matrix (Fin 1) (Fin 1) ℝ)) 0 = .ok v) :=
  ⟨by decide, by simp, prox_gradient_ll_univariate_ignores_regularizer 2 (by decide) !![0; 2]
    !![-3] (by simp) 0 7⟩

end ProxGradientGGM
